import Mathlib

/-!
Verification of the single-file PDF report generator
`tmp/pdfs/build_practice_timer_summary.py`.

The script has three stages: a text wrapper (a faithful model of
`textwrap.wrap(text, width, break_long_words=False, break_on_hyphens=False)`),
a layout engine walking sections top-to-bottom while decrementing a vertical
cursor, and a byte-level PDF serializer (content stream, six objects, the
cross-reference table and the trailer).  Strings are modelled as `List Char`,
byte strings as `List Nat` (one `Nat` per byte).  All recursions are
structural (fuelled where the source loops consume lists non-structurally),
so every definition evaluates inside the kernel.
-/

namespace PTPDF

/-! ### Page-geometry constants of the script -/

def PAGE_WIDTH : Nat := 612

def PAGE_HEIGHT : Nat := 792

def MARGIN_X : Int := 54

def MARGIN_TOP : Int := 54

def MARGIN_BOTTOM : Int := 54

def TITLE_SIZE : Nat := 18

def HEADING_SIZE : Nat := 12

def BODY_SIZE : Nat := 11

def LEADING : Int := 14

def MAX_CHARS_BODY : Nat := 90

def MAX_CHARS_BODY_INDENT : Nat := 86

/-! ### Decimal rendering, modelling Python `str` of a non-negative `int`
and the `f"{pos:010d}"` zero-padded form used in the xref table. -/

def digitChar (d : Nat) : Char :=
  if d = 0 then '0' else if d = 1 then '1' else if d = 2 then '2'
  else if d = 3 then '3' else if d = 4 then '4' else if d = 5 then '5'
  else if d = 6 then '6' else if d = 7 then '7' else if d = 8 then '8' else '9'

def natDigitsF : Nat → Nat → List Char
  | 0, _ => []
  | f + 1, n =>
    if n < 10 then [digitChar n]
    else natDigitsF f (n / 10) ++ [digitChar (n % 10)]

/-- Decimal rendering of a natural number, as Python `str(n)` for `n ≥ 0`. -/
def natToChars (n : Nat) : List Char := natDigitsF (n + 1) n

/-- Rendering of a Python `int`, as `str(x)` (a leading minus sign when negative). -/
def intToChars (x : Int) : List Char :=
  if x < 0 then '-' :: natToChars (-x).toNat else natToChars x.toNat

/-- Python `f"{pos:010d}"` for `pos ≥ 0`: pad with zeros on the left to width ten. -/
def pad10 (n : Nat) : List Char :=
  List.replicate (10 - (natToChars n).length) '0' ++ natToChars n

/-- The numeric value a reader obtains from a decimal digit string. -/
def decVal (ds : List Char) : Nat :=
  ds.foldl (fun a c => 10 * a + (c.toNat - 48)) 0

/-! ### PDF text escaping

The source (line 27-28):
`return text.replace('\\', r'\\').replace('(', r'\(').replace(')', r'\)')`.
Each `str.replace` has a single-character pattern, so one pass is the
character-wise flat map below; the three passes run in sequence. -/

def replacePass (c : Char) (r : List Char) (l : List Char) : List Char :=
  l.flatMap (fun d => if d = c then r else [d])

def escape_pdf_text (t : List Char) : List Char :=
  replacePass ')' ['\\', ')']
    (replacePass '(' ['\\', '(']
      (replacePass '\\' ['\\', '\\'] t))

/-- The per-character action of the composed three replacements. -/
def escChar (c : Char) : List Char :=
  if c = '\\' ∨ c = '(' ∨ c = ')' then ['\\', c] else [c]

/-- Reversing the three escape sequences `\\`, `\(`, `\)` on a string. -/
def unescape_pdf : List Char → List Char
  | [] => []
  | [c] => [c]
  | c :: d :: r =>
    if c = '\\' ∧ (d = '\\' ∨ d = '(' ∨ d = ')') then d :: unescape_pdf r
    else c :: unescape_pdf (d :: r)

/-- Holds iff every `(`, `)` and `\` in the string occurs inside one of the
three escape sequences (no unescaped special character remains). -/
def wellEscaped : List Char → Bool
  | [] => true
  | c :: r =>
    if c = '\\' then
      match r with
      | [] => false
      | d :: r2 => ((d = '\\') || (d = '(') || (d = ')')) && wellEscaped r2
    else (!(c = '(') && !(c = ')')) && wellEscaped r

/-! ### The text wrapper

`wrap(text, width)` in the source is
`textwrap.wrap(text, width=width, break_long_words=False, break_on_hyphens=False)`
with the remaining options at their defaults (`expand_tabs=True` with tab size
8, `replace_whitespace=True`, `drop_whitespace=True`, empty indents,
`max_lines=None`).  The model below follows CPython's `TextWrapper`:
`_munge_whitespace` (tab expansion, then translating the six ASCII whitespace
characters to spaces), `_split` with `wordsep_simple_re = r"(\s+)"` (maximal
runs of `\s` / non-`\s` characters), and `_wrap_chunks` (a greedy loop over
the chunk list).  Loops that consume lists non-structurally take an explicit
fuel argument; every top-level wrapper passes enough fuel, so the functions
evaluate in the kernel. -/

/-- The character class of Python's regex `\s` on `str`, which coincides with
`str.isspace`. -/
def isPySpace (c : Char) : Bool :=
  decide ((9 ≤ c.toNat ∧ c.toNat ≤ 13) ∨ (28 ≤ c.toNat ∧ c.toNat ≤ 31) ∨
    c.toNat = 32 ∨ c.toNat = 133 ∨ c.toNat = 160 ∨ c.toNat = 5760 ∨
    (8192 ≤ c.toNat ∧ c.toNat ≤ 8202) ∨ c.toNat = 8232 ∨ c.toNat = 8233 ∨
    c.toNat = 8239 ∨ c.toNat = 8287 ∨ c.toNat = 12288)

/-- The character class of `textwrap._whitespace` (`"\t\n\x0b\x0c\r "`), the
only characters `wordsep_simple_re` and `unicode_whitespace_trans` recognize:
the module hardcodes US-ASCII whitespace so that Unicode spaces such as
U+00A0 never split a chunk. -/
def isAsciiWs (c : Char) : Bool :=
  decide (c.toNat = 9 ∨ c.toNat = 10 ∨ c.toNat = 11 ∨ c.toNat = 12 ∨
    c.toNat = 13 ∨ c.toNat = 32)

/-- Python `str.expandtabs(8)`: a tab becomes spaces up to the next multiple
of eight columns; the column counter resets on a newline or carriage return. -/
def expandTabs : List Char → Nat → List Char
  | [], _ => []
  | c :: rest, col =>
    if c = '\t' then
      List.replicate (8 - col % 8) ' ' ++ expandTabs rest (col + (8 - col % 8))
    else if c = '\n' ∨ c = '\r' then c :: expandTabs rest 0
    else c :: expandTabs rest (col + 1)

/-- The `unicode_whitespace_trans` table: each of `\t\n\x0b\x0c\r` becomes a
space (after tab expansion no tabs remain; the entry is kept for fidelity). -/
def replaceWsChar (c : Char) : Char :=
  if c = '\t' ∨ c = '\n' ∨ c = '\x0b' ∨ c = '\x0c' ∨ c = '\r' then ' ' else c

/-- The model of `TextWrapper._munge_whitespace`. -/
def munge (t : List Char) : List Char := (expandTabs t 0).map replaceWsChar

def sameKind (c : Char) (d : Char) : Bool := isAsciiWs d == isAsciiWs c

/-- The model of `TextWrapper._split` with `break_on_hyphens=False`
(`wordsep_simple_re = r"([\t\n\x0b\x0c\r ]+)"`): split into maximal runs of
ASCII-whitespace / non-ASCII-whitespace characters, keeping both kinds. -/
def splitChunksF : Nat → List Char → List (List Char)
  | 0, _ => []
  | _ + 1, [] => []
  | f + 1, c :: cs =>
    (c :: cs.takeWhile (sameKind c)) :: splitChunksF f (cs.dropWhile (sameKind c))

def pySplitChunks (l : List Char) : List (List Char) := splitChunksF l.length l

/-- A chunk whose characters are all whitespace (Python `chunk.strip() == ""`). -/
def isWsChunk (ch : List Char) : Bool := ch.all isPySpace

/-- The inner loop of `_wrap_chunks`: move chunks onto the current line while
the accumulated length stays within the width. -/
def greedy (width : Nat) : Nat → List (List Char) → List (List Char) × List (List Char)
  | _, [] => ([], [])
  | curLen, ch :: rest =>
    if curLen + ch.length ≤ width then
      let p := greedy width (curLen + ch.length) rest
      (ch :: p.1, p.2)
    else ([], ch :: rest)

/-- One line of `_wrap_chunks` before the trailing-whitespace drop: the greedy
step, then `_handle_long_word` with `break_long_words=False` — when the current
line is empty (the head chunk alone exceeds the width) the whole chunk moves
onto the line; otherwise the long chunk waits for the next line. -/
def buildLine (width : Nat) (chunks : List (List Char)) :
    List (List Char) × List (List Char) :=
  let p := greedy width 0 chunks
  if p.1.isEmpty then
    match p.2 with
    | [] => ([], [])
    | ch :: rest => ([ch], rest)
  else p

/-- The drop-whitespace step at the end of a line: delete the last chunk of the
current line when it is pure whitespace (a single deletion, as in CPython). -/
def dropLastWs (cur : List (List Char)) : List (List Char) :=
  match cur.getLast? with
  | some ch => if isWsChunk ch then cur.dropLast else cur
  | none => cur

/-- The outer loop of `_wrap_chunks`.  `first` is `true` while no line has
been emitted (Python's `lines` list is empty); in that state a leading
whitespace chunk is kept, afterwards it is deleted at the top of the
iteration. -/
def wrapLoopF (width : Nat) : Nat → Bool → List (List Char) → List (List Char)
  | 0, _, _ => []
  | _ + 1, _, [] => []
  | f + 1, first, ch :: rest =>
    let chunks1 := if !first && isWsChunk ch then rest else ch :: rest
    let p := buildLine width chunks1
    let cur3 := dropLastWs p.1
    if cur3.isEmpty then wrapLoopF width f first p.2
    else cur3.flatten :: wrapLoopF width f false p.2

/-- The source's `wrap(text, width)`. -/
def wrap (text : List Char) (width : Nat) : List (List Char) :=
  wrapLoopF width (pySplitChunks (munge text)).length true (pySplitChunks (munge text))

/-- The maximal runs of characters on which the separator predicate `p`
fails (fuelled; `fuel = length` always suffices). -/
def runsF (p : Char → Bool) : Nat → List Char → List (List Char)
  | 0, _ => []
  | _ + 1, [] => []
  | f + 1, c :: cs =>
    if p c then runsF p f cs
    else (c :: cs.takeWhile (fun d => !p d)) :: runsF p f (cs.dropWhile (fun d => !p d))

def wordsBy (p : Char → Bool) (l : List Char) : List (List Char) := runsF p l.length l

/-- The words of a string in the sense of Python `str.split()` (maximal runs
of non-whitespace); the spec's "collapsing whitespace" identifies two strings
with the same word list. -/
def pyWords (l : List Char) : List (List Char) := wordsBy isPySpace l

/-- The whitespace-delimited tokens the wrapper actually works with: maximal
runs of non-ASCII-whitespace characters (the splitting boundaries of
`wordsep_simple_re`). -/
def asciiTokens (l : List Char) : List (List Char) := wordsBy isAsciiWs l

/-- The class of a chunk: `true` for an ASCII-whitespace chunk. -/
def chunkKind (ch : List Char) : Bool :=
  match ch with
  | [] => false
  | c :: _ => isAsciiWs c

/-- The invariant of the chunk lists `_wrap_chunks` works on: chunks are
nonempty, each is homogeneous in its ASCII-whitespace class, and adjacent
chunks alternate classes. -/
def ChunksOK (cks : List (List Char)) : Prop :=
  (∀ ch ∈ cks, ch ≠ [] ∧ ∀ c ∈ ch, isAsciiWs c = chunkKind ch)
  ∧ cks.Chain' (fun a b => chunkKind a ≠ chunkKind b)

/-- The words (unicode sense) contained in a chunk list. -/
def chunkWords (cks : List (List Char)) : List (List Char) :=
  (cks.map pyWords).flatten

/-- Joining produced lines with single spaces. -/
def joinSpace : List (List Char) → List Char
  | [] => []
  | [l] => l
  | l :: rest => l ++ ' ' :: joinSpace rest

/-- The non-whitespace chunks of a chunk list. -/
def wordChunks (cks : List (List Char)) : List (List Char) :=
  cks.filter (fun ch => !isWsChunk ch)

/-! ### The layout engine

Source lines 109–142.  A `Placement` is one `add_text` record.  The first
element of the script's `sections` list is the title (consumed before the
loop); the loop itself only ever sees dictionaries of type `"section"`
(heading plus pre-wrapped body lines) or `"bullets"` (heading plus raw items,
wrapped during layout), which `Body` models. -/

structure Placement where
  text : List Char
  x : Int
  y : Int
  font : List Char
  size : Nat
deriving Repr, DecidableEq

inductive Body where
  | sec (title : List Char) (body : List (List Char))
  | bullets (title : List Char) (items : List (List Char))
deriving Repr, DecidableEq

/-- The wrapped lines of one bullet item: wrapped at the narrower width, the
first line prefixed `"- "`, continuation lines prefixed two spaces. -/
def bulletLines (item : List Char) : List (List Char) :=
  match wrap item MAX_CHARS_BODY_INDENT with
  | [] => []
  | l :: rest => ("- ".data ++ l) :: rest.map (fun r => ("  ".data) ++ r)

/-- Draw a run of body lines, decrementing the cursor by `LEADING` per line. -/
def placeLines : Int → List (List Char) → List Placement × Int
  | y, [] => ([], y)
  | y, l :: rest =>
    let p := placeLines (y - LEADING) rest
    (⟨l, MARGIN_X, y, "Helvetica".data, BODY_SIZE⟩ :: p.1, p.2)

/-- Lay out one section: the bold heading, then (for `"section"`) the stored
body lines or (for `"bullets"`) every item's wrapped, prefixed lines; then the
4-point gap after the section. -/
def layoutBody (y : Int) : Body → List Placement × Int
  | .sec t body =>
    let p := placeLines (y - 16) body
    (⟨t, MARGIN_X, y, "Helvetica-Bold".data, HEADING_SIZE⟩ :: p.1, p.2 - 4)
  | .bullets t items =>
    let p := placeLines (y - 16) (items.map bulletLines).flatten
    (⟨t, MARGIN_X, y, "Helvetica-Bold".data, HEADING_SIZE⟩ :: p.1, p.2 - 4)

/-- The loop over `sections[1:]` with the overflow check: after finishing a
section, stop when the cursor has dropped below the bottom margin. -/
def layoutSecs : Int → List Body → List Placement × Int
  | y, [] => ([], y)
  | y, b :: rest =>
    let p := layoutBody y b
    if p.2 < MARGIN_BOTTOM then p
    else
      let q := layoutSecs p.2 rest
      (p.1 ++ q.1, q.2)

/-- The same loop without the overflow check (every section laid out). -/
def layoutAllSecs : Int → List Body → List Placement × Int
  | y, [] => ([], y)
  | y, b :: rest =>
    let p := layoutBody y b
    let q := layoutAllSecs p.2 rest
    (p.1 ++ q.1, q.2)

def titlePlacement (titleText : List Char) : Placement :=
  ⟨titleText, MARGIN_X, (PAGE_HEIGHT : Int) - MARGIN_TOP, "Helvetica-Bold".data, TITLE_SIZE⟩

/-- The whole layout stage: title at the top, cursor dropped by 22, then the
section loop (with the overflow check, as in the source). -/
def layoutDoc (titleText : List Char) (secs : List Body) : List Placement × Int :=
  let p := layoutSecs ((PAGE_HEIGHT : Int) - MARGIN_TOP - 22) secs
  (titlePlacement titleText :: p.1, p.2)

/-- The layout stage with the overflow check removed (the full input). -/
def layoutDocAll (titleText : List Char) (secs : List Body) : List Placement × Int :=
  let p := layoutAllSecs ((PAGE_HEIGHT : Int) - MARGIN_TOP - 22) secs
  (titlePlacement titleText :: p.1, p.2)

/-! ### The PDF serializer

Source lines 144–210.  Byte strings are `List Nat`.  The template strings of
the script are pure ASCII, so their `.encode("ascii")` is the code-point map
`asciiBytes`; the content stream itself is encoded with
`.encode("latin-1", "replace")`. -/

def asciiBytes (s : List Char) : List Nat := s.map Char.toNat

/-- One byte of Python `str.encode("latin-1", "replace")`: code points up to
255 become that byte, anything else becomes `b"?"` (63). -/
def latin1Byte (c : Char) : Nat := if c.toNat ≤ 255 then c.toNat else 63

def encodeLatin1Replace (s : List Char) : List Nat := s.map latin1Byte

/-- The text-drawing operators emitted for one placement:
begin-text, set font and size, set text matrix, show escaped text, end-text. -/
def placementOps (p : Placement) : List Char :=
  ("BT\n/").data ++ p.font ++ (" ").data ++ natToChars p.size
    ++ (" Tf\n1 0 0 1 ").data ++ intToChars p.x ++ (" ").data ++ intToChars p.y
    ++ (" Tm\n(").data ++ escape_pdf_text p.text ++ (") Tj\nET\n").data

/-- The model of `content_stream = "".join(content).encode("latin-1", "replace")`. -/
def contentStreamBytes (ps : List Placement) : List Nat :=
  encodeLatin1Replace (ps.map placementOps).flatten

def obj1 : List Nat :=
  asciiBytes ("1 0 obj\n<< /Type /Catalog /Pages 2 0 R >>\nendobj\n").data

def obj2 : List Nat :=
  asciiBytes ("2 0 obj\n<< /Type /Pages /Kids [3 0 R] /Count 1 >>\nendobj\n").data

def obj3 : List Nat :=
  asciiBytes ("3 0 obj\n").data
    ++ asciiBytes (("<< /Type /Page /Parent 2 0 R /MediaBox [0 0 ").data
        ++ natToChars PAGE_WIDTH ++ (" ").data ++ natToChars PAGE_HEIGHT ++ ("] ").data)
    ++ asciiBytes ("/Resources << /Font << /Helvetica 4 0 R /Helvetica-Bold 5 0 R >> >> ").data
    ++ asciiBytes ("/Contents 6 0 R >>\nendobj\n").data

def obj4 : List Nat :=
  asciiBytes ("4 0 obj\n<< /Type /Font /Subtype /Type1 /BaseFont /Helvetica >>\nendobj\n").data

def obj5 : List Nat :=
  asciiBytes ("5 0 obj\n<< /Type /Font /Subtype /Type1 /BaseFont /Helvetica-Bold >>\nendobj\n").data

/-- The contents object: its `/Length` entry is the byte length of the encoded
content stream, and the stream payload sits between `stream\n` and
`endstream`. -/
def obj6 (cs : List Nat) : List Nat :=
  asciiBytes ("6 0 obj\n").data
    ++ asciiBytes (("<< /Length ").data ++ natToChars cs.length ++ (" >>\nstream\n").data)
    ++ cs
    ++ asciiBytes ("endstream\nendobj\n").data

def objectsList (cs : List Nat) : List (List Nat) :=
  [obj1, obj2, obj3, obj4, obj5, obj6 cs]

def headerBytes : List Nat := asciiBytes ("%PDF-1.4\n").data

/-- The running byte offsets recorded in `xref_positions`: each object's
start position in the output assembled so far. -/
def offsets : Nat → List (List Nat) → List Nat
  | _, [] => []
  | start, o :: rest => start :: offsets (start + o.length) rest

def xrefPositions (cs : List Nat) : List Nat :=
  offsets headerBytes.length (objectsList cs)

def xrefStart (cs : List Nat) : Nat :=
  headerBytes.length + ((objectsList cs).map List.length).sum

/-- One cross-reference table entry: `f"{pos:010d} 00000 n \n"`. -/
def xrefEntry (pos : Nat) : List Nat := asciiBytes (pad10 pos ++ (" 00000 n \n").data)

def xrefBytes (cs : List Nat) : List Nat :=
  asciiBytes ("xref\n").data
    ++ asciiBytes (("0 ").data ++ natToChars ((objectsList cs).length + 1) ++ ("\n").data)
    ++ asciiBytes ("0000000000 65535 f \n").data
    ++ ((xrefPositions cs).map xrefEntry).flatten

def trailerBytes (cs : List Nat) : List Nat :=
  asciiBytes ("trailer\n").data
    ++ asciiBytes (("<< /Size ").data ++ natToChars ((objectsList cs).length + 1)
        ++ (" /Root 1 0 R >>\n").data)
    ++ asciiBytes ("startxref\n").data
    ++ asciiBytes (natToChars (xrefStart cs) ++ ("\n").data)
    ++ asciiBytes ("%%EOF\n").data

/-- The complete output for a given encoded content stream: header, the six
objects in order, the cross-reference table, the trailer. -/
def pdfFileOf (cs : List Nat) : List Nat :=
  headerBytes ++ (objectsList cs).flatten ++ xrefBytes cs ++ trailerBytes cs

/-- The full pipeline `pdf_bytes`: lay out the sections, serialize the
placements to a content stream, and assemble the file. -/
def pdf_bytes (titleText : List Char) (secs : List Body) : List Nat :=
  pdfFileOf (contentStreamBytes (layoutDoc titleText secs).1)

theorem digitChar_toNat (d : Nat) (h : d < 10) : (digitChar d).toNat = 48 + d := by
  interval_cases d <;> rfl

theorem decVal_append_singleton (A : List Char) (c : Char) :
    decVal (A ++ [c]) = 10 * decVal A + (c.toNat - 48) := by
  simp [decVal, List.foldl_append]

theorem decVal_natDigitsF : ∀ f n, n < 10 ^ f → decVal (natDigitsF f n) = n := by
  intro f
  induction f with
  | zero => intro n h; simp at h; simp [h, natDigitsF, decVal]
  | succ f ih =>
    intro n h
    by_cases h10 : n < 10
    · simp [natDigitsF, h10, decVal, digitChar_toNat n h10]
    · have hdiv : n / 10 < 10 ^ f := by
        apply Nat.div_lt_of_lt_mul
        have hp : (10:Nat) ^ (f + 1) = 10 * 10 ^ f := by ring
        omega
      simp only [natDigitsF, h10, if_false]
      rw [decVal_append_singleton, ih _ hdiv,
        digitChar_toNat _ (Nat.mod_lt n (by norm_num))]
      omega

theorem lt_ten_pow_succ (n : Nat) : n < 10 ^ (n + 1) := by
  induction n with
  | zero => norm_num
  | succ n ih =>
    have h2 : (10:Nat) ^ (n + 1) < 10 ^ (n + 2) := Nat.pow_lt_pow_succ (by norm_num)
    omega

/-- The decimal rendering of `n` reads back as `n`. -/
theorem decVal_natToChars (n : Nat) : decVal (natToChars n) = n :=
  decVal_natDigitsF (n + 1) n (lt_ten_pow_succ n)

theorem decVal_replicate_zero (k : Nat) (ds : List Char) :
    decVal (List.replicate k '0' ++ ds) = decVal ds := by
  induction k with
  | zero => simp
  | succ k ih =>
    simpa [decVal, List.replicate_succ] using ih

/-- The zero-padded xref rendering of `n` reads back as `n`. -/
theorem decVal_pad10 (n : Nat) : decVal (pad10 n) = n := by
  rw [pad10, decVal_replicate_zero, decVal_natToChars]

theorem replacePass_cons (c : Char) (r : List Char) (d : Char) (l : List Char) :
    replacePass c r (d :: l) = (if d = c then r else [d]) ++ replacePass c r l := by
  simp [replacePass]

theorem escape_eq_flatMap (t : List Char) : escape_pdf_text t = t.flatMap escChar := by
  induction t with
  | nil => rfl
  | cons c rest ih =>
    have step : escape_pdf_text (c :: rest) = escChar c ++ escape_pdf_text rest := by
      by_cases h1 : c = '\\'
      · subst h1
        simp [escape_pdf_text, replacePass_cons, escChar]
      · by_cases h2 : c = '('
        · subst h2
          simp [escape_pdf_text, replacePass_cons, escChar]
        · by_cases h3 : c = ')'
          · subst h3
            simp [escape_pdf_text, replacePass_cons, escChar]
          · simp [escape_pdf_text, replacePass_cons, h1, h2, h3, escChar]
    rw [step, ih, List.flatMap_cons]

theorem unescape_pdf_cons2 (c d : Char) (r : List Char) :
    unescape_pdf (c :: d :: r) =
      if c = '\\' ∧ (d = '\\' ∨ d = '(' ∨ d = ')') then d :: unescape_pdf r
      else c :: unescape_pdf (d :: r) := rfl

theorem escChar_ne_nil (c : Char) : escChar c ≠ [] := by
  unfold escChar; split <;> simp

theorem unescape_escape_aux (t : List Char) :
    unescape_pdf (t.flatMap escChar) = t := by
  induction t with
  | nil => rfl
  | cons c rest ih =>
    by_cases h : c = '\\' ∨ c = '(' ∨ c = ')'
    · have hc : (c :: rest).flatMap escChar = '\\' :: c :: rest.flatMap escChar := by
        simp [escChar, h]
      rw [hc, unescape_pdf_cons2, if_pos ⟨rfl, h⟩, ih]
    · have hc : (c :: rest).flatMap escChar = c :: rest.flatMap escChar := by
        simp [escChar, h]
      rw [hc]
      push_neg at h
      obtain ⟨h1, h2, h3⟩ := h
      cases hr : rest.flatMap escChar with
      | nil =>
        have hrest : rest = [] := by
          cases rest with
          | nil => rfl
          | cons x xs =>
            exfalso
            rw [List.flatMap_cons] at hr
            exact escChar_ne_nil x (List.append_eq_nil.mp hr).1
        subst hrest
        rfl
      | cons d r2 =>
        have hcond : ¬ (c = '\\' ∧ (d = '\\' ∨ d = '(' ∨ d = ')')) := by
          rintro ⟨hcc, -⟩; exact h1 hcc
        rw [unescape_pdf_cons2, if_neg hcond, ← hr, ih]

theorem wellEscaped_cons (c : Char) (r : List Char) :
    wellEscaped (c :: r) =
      if c = '\\' then
        match r with
        | [] => false
        | d :: r2 => ((d = '\\') || (d = '(') || (d = ')')) && wellEscaped r2
      else (!(c = '(') && !(c = ')')) && wellEscaped r := by
  cases r <;> rfl

theorem wellEscaped_escape_aux (t : List Char) :
    wellEscaped (t.flatMap escChar) = true := by
  induction t with
  | nil => rfl
  | cons c rest ih =>
    by_cases h : c = '\\' ∨ c = '(' ∨ c = ')'
    · have hc : (c :: rest).flatMap escChar = '\\' :: c :: rest.flatMap escChar := by
        simp [escChar, h]
      rw [hc, wellEscaped_cons, if_pos rfl]
      rcases h with h | h | h <;> subst h <;> simpa using ih
    · have hc : (c :: rest).flatMap escChar = c :: rest.flatMap escChar := by
        simp [escChar, h]
      rw [hc]
      push_neg at h
      obtain ⟨h1, h2, h3⟩ := h
      rw [wellEscaped_cons, if_neg h1]
      simp [h2, h3, ih]

/-- C4.  Escaping round-trip: `escape_pdf_text` prefixes each backslash and
parenthesis with a backslash; undoing the three escape sequences restores the
original string, and the output has no unescaped parenthesis or backslash. -/
theorem escape_pdf_text_roundtrip (t : List Char) :
    escape_pdf_text t = t.flatMap escChar
    ∧ unescape_pdf (escape_pdf_text t) = t
    ∧ wellEscaped (escape_pdf_text t) = true := by
  refine ⟨escape_eq_flatMap t, ?_, ?_⟩
  · rw [escape_eq_flatMap]; exact unescape_escape_aux t
  · rw [escape_eq_flatMap]; exact wellEscaped_escape_aux t

theorem placeLines_bounds : ∀ (ls : List (List Char)) (y : Int),
    ((placeLines y ls).1).Pairwise (fun a b => b.y < a.y)
    ∧ (∀ p ∈ (placeLines y ls).1, (placeLines y ls).2 < p.y ∧ p.y ≤ y)
    ∧ (placeLines y ls).2 ≤ y := by
  intro ls
  induction ls with
  | nil => intro y; refine ⟨List.Pairwise.nil, by simp [placeLines], le_refl y⟩
  | cons l rest ih =>
    intro y
    obtain ⟨ihP, ihM, ihY⟩ := ih (y - LEADING)
    have hL : (0:Int) < LEADING := by norm_num [LEADING]
    refine ⟨?_, ?_, ?_⟩
    · rw [placeLines]
      refine List.pairwise_cons.mpr ⟨?_, ihP⟩
      intro q hq
      have := (ihM q hq).2
      dsimp only
      omega
    · rw [placeLines]
      intro p hp
      rcases List.mem_cons.mp hp with h | h
      · subst h
        constructor
        · dsimp only
          omega
        · exact le_refl y
      · obtain ⟨h1, h2⟩ := ihM p h
        exact ⟨h1, by omega⟩
    · rw [placeLines]
      dsimp only
      omega

theorem layoutBody_bounds (y : Int) (b : Body) :
    ((layoutBody y b).1).Pairwise (fun a b => b.y < a.y)
    ∧ (∀ p ∈ (layoutBody y b).1, (layoutBody y b).2 < p.y ∧ p.y ≤ y)
    ∧ (layoutBody y b).2 < y := by
  cases b with
  | sec t body =>
    obtain ⟨hP, hM, hY⟩ := placeLines_bounds body (y - 16)
    refine ⟨?_, ?_, ?_⟩
    · rw [layoutBody]
      refine List.pairwise_cons.mpr ⟨?_, hP⟩
      intro q hq
      have := (hM q hq).2
      dsimp only
      omega
    · rw [layoutBody]
      intro p hp
      rcases List.mem_cons.mp hp with h | h
      · subst h
        dsimp only
        constructor
        · omega
        · exact le_refl y
      · obtain ⟨h1, h2⟩ := hM p h
        dsimp only
        constructor
        · omega
        · omega
    · rw [layoutBody]
      dsimp only
      omega
  | bullets t items =>
    obtain ⟨hP, hM, hY⟩ := placeLines_bounds (items.map bulletLines).flatten (y - 16)
    refine ⟨?_, ?_, ?_⟩
    · rw [layoutBody]
      refine List.pairwise_cons.mpr ⟨?_, hP⟩
      intro q hq
      have := (hM q hq).2
      dsimp only
      omega
    · rw [layoutBody]
      intro p hp
      rcases List.mem_cons.mp hp with h | h
      · subst h
        dsimp only
        constructor
        · omega
        · exact le_refl y
      · obtain ⟨h1, h2⟩ := hM p h
        dsimp only
        constructor
        · omega
        · omega
    · rw [layoutBody]
      dsimp only
      omega

theorem layoutSecs_bounds : ∀ (secs : List Body) (y : Int),
    ((layoutSecs y secs).1).Pairwise (fun a b => b.y < a.y)
    ∧ (∀ p ∈ (layoutSecs y secs).1, (layoutSecs y secs).2 < p.y ∧ p.y ≤ y)
    ∧ (layoutSecs y secs).2 ≤ y := by
  intro secs
  induction secs with
  | nil => intro y; exact ⟨List.Pairwise.nil, by simp [layoutSecs], le_refl y⟩
  | cons b rest ih =>
    intro y
    obtain ⟨bP, bM, bY⟩ := layoutBody_bounds y b
    by_cases hb : (layoutBody y b).2 < MARGIN_BOTTOM
    · rw [layoutSecs, if_pos hb]
      exact ⟨bP, bM, le_of_lt bY⟩
    · obtain ⟨qP, qM, qY⟩ := ih (layoutBody y b).2
      rw [layoutSecs, if_neg hb]
      refine ⟨?_, ?_, ?_⟩
      · dsimp only
        rw [List.pairwise_append]
        refine ⟨bP, qP, ?_⟩
        intro a ha c hc
        have h1 := (bM a ha).1
        have h2 := (qM c hc).2
        omega
      · intro p hp
        dsimp only at hp ⊢
        rcases List.mem_append.mp hp with h | h
        · have h1 := (bM p h).1
          have h2 := (bM p h).2
          constructor
          · omega
          · exact h2
        · obtain ⟨h1, h2⟩ := qM p h
          exact ⟨h1, by omega⟩
      · dsimp only
        omega

/-- C9.  Implicit invariant: the y coordinates of the placement records are
strictly decreasing in list order — the cursor only moves down (by at least
the line leading) between consecutive `add_text` calls, so no later line is
drawn at or above an earlier one's baseline. -/
theorem layout_y_strictly_decreasing (titleText : List Char) (secs : List Body) :
    ((layoutDoc titleText secs).1).Pairwise (fun a b => b.y < a.y) := by
  obtain ⟨sP, sM, sY⟩ := layoutSecs_bounds secs ((PAGE_HEIGHT : Int) - MARGIN_TOP - 22)
  rw [layoutDoc]
  refine List.pairwise_cons.mpr ⟨?_, sP⟩
  intro q hq
  have := (sM q hq).2
  simp only [titlePlacement]
  norm_num [PAGE_HEIGHT, MARGIN_TOP] at this ⊢
  omega

set_option maxRecDepth 4000 in
/-- C10.  Because the overflow check runs only after a section is complete,
there are inputs whose layout contains placements strictly below the bottom
margin: the overflowing section is still drawn in full. -/
theorem layout_draws_below_bottom_margin :
    ∃ titleText secs, ∃ p ∈ (layoutDoc titleText secs).1, p.y < MARGIN_BOTTOM := by
  refine ⟨['T'], [Body.sec ['H'] (List.replicate 60 ['x'])], ?_⟩
  decide

theorem layoutAllSecs_ne_nil (y : Int) (b : Body) (rest : List Body) :
    (layoutAllSecs y (b :: rest)).1 ≠ [] := by
  rw [layoutAllSecs]
  cases b <;> simp [layoutBody]

theorem layoutSecs_prefix_aux : ∀ (secs : List Body) (y : Int), ∃ k,
    k ≤ secs.length
    ∧ layoutSecs y secs = layoutAllSecs y (secs.take k)
    ∧ (k < secs.length →
        (layoutAllSecs y (secs.take k)).2 < MARGIN_BOTTOM
        ∧ (layoutSecs y secs).1.length < (layoutAllSecs y secs).1.length) := by
  intro secs
  induction secs with
  | nil =>
    intro y
    exact ⟨0, le_refl 0, rfl, by intro h; exact absurd h (by simp)⟩
  | cons b rest ih =>
    intro y
    by_cases hb : (layoutBody y b).2 < MARGIN_BOTTOM
    · refine ⟨1, by simp, ?_, ?_⟩
      · show layoutSecs y (b :: rest) = layoutAllSecs y [b]
        rw [layoutSecs, if_pos hb, layoutAllSecs, layoutAllSecs]
        simp
      · intro hlt
        have hrest : rest ≠ [] := by
          intro h; rw [h] at hlt; simp at hlt
        constructor
        · show (layoutAllSecs y [b]).2 < MARGIN_BOTTOM
          rw [layoutAllSecs, layoutAllSecs]
          exact hb
        · rw [layoutSecs, if_pos hb, layoutAllSecs]
          simp only [List.length_append]
          cases rest with
          | nil => exact absurd rfl hrest
          | cons b2 r2 =>
            have := layoutAllSecs_ne_nil (layoutBody y b).2 b2 r2
            have hpos : 0 < (layoutAllSecs (layoutBody y b).2 (b2 :: r2)).1.length :=
              List.length_pos.mpr this
            omega
    · obtain ⟨k, hk, heq, himp⟩ := ih (layoutBody y b).2
      refine ⟨k + 1, by simpa using hk, ?_, ?_⟩
      · show layoutSecs y (b :: rest) = layoutAllSecs y (b :: rest.take k)
        rw [layoutSecs, if_neg hb, layoutAllSecs, heq]
      · intro hlt
        have hklt : k < rest.length := by simpa using hlt
        obtain ⟨h1, h2⟩ := himp hklt
        constructor
        · show (layoutAllSecs y (b :: rest.take k)).2 < MARGIN_BOTTOM
          rw [layoutAllSecs]
          exact h1
        · rw [layoutSecs, if_neg hb, layoutAllSecs]
          simp only [List.length_append]
          omega

/-- C1 (amended).  The engine checks the cursor only after finishing a
section, so the emitted layout is the full layout of a prefix of the section
list — no section is ever partially drawn; and when the truncation point lies
strictly before the end (the cursor had dropped below the bottom margin with
sections remaining), the output has strictly fewer drawn lines than the full
input.  (Unamended, the claim fails when the overflow happens inside the last
section: everything is drawn, see the counterexample.) -/
theorem layout_truncates_at_section_boundary (titleText : List Char) (secs : List Body) :
    ∃ k, k ≤ secs.length
    ∧ layoutDoc titleText secs = layoutDocAll titleText (secs.take k)
    ∧ (k < secs.length →
        (layoutDocAll titleText (secs.take k)).2 < MARGIN_BOTTOM
        ∧ (layoutDoc titleText secs).1.length < (layoutDocAll titleText secs).1.length) := by
  obtain ⟨k, hk, heq, himp⟩ := layoutSecs_prefix_aux secs ((PAGE_HEIGHT : Int) - MARGIN_TOP - 22)
  refine ⟨k, hk, ?_, ?_⟩
  · rw [layoutDoc, layoutDocAll, heq]
  · intro hlt
    obtain ⟨h1, h2⟩ := himp hlt
    constructor
    · rw [layoutDocAll]
      exact h1
    · rw [layoutDoc, layoutDocAll]
      simpa using h2

set_option maxRecDepth 4000 in
/-- C1 (counterexample).  A single long section makes the full layout's final
cursor drop below the bottom margin (the input exceeds the page's vertical
capacity), yet the emitted layout contains exactly as many drawn lines as the
full input — nothing is truncated, contradicting "strictly fewer drawn
lines". -/
theorem layout_overflow_not_always_truncated :
    (layoutDocAll ['T'] [Body.sec ['H'] (List.replicate 60 ['x'])]).2 < MARGIN_BOTTOM
    ∧ (layoutDoc ['T'] [Body.sec ['H'] (List.replicate 60 ['x'])]).1.length
        = (layoutDocAll ['T'] [Body.sec ['H'] (List.replicate 60 ['x'])]).1.length := by
  decide

/-- C6.  Stream length exactness: the digits written after `/Length` in the
contents object denote exactly the number of payload bytes lying between
`stream\n` and `endstream`. -/
theorem stream_length_exact (cs : List Nat) :
    obj6 cs = asciiBytes ("6 0 obj\n").data
      ++ asciiBytes (("<< /Length ").data) ++ asciiBytes (natToChars cs.length)
      ++ asciiBytes ((" >>\nstream\n").data) ++ cs ++ asciiBytes ("endstream\nendobj\n").data
    ∧ decVal (natToChars cs.length) = cs.length := by
  refine ⟨?_, decVal_natToChars _⟩
  rw [obj6]
  simp [asciiBytes, List.append_assoc]

theorem drop_offsets_eq : ∀ (objs : List (List Nat)) (pre rest : List Nat) (i p : Nat),
    (offsets pre.length objs).get? i = some p →
    (pre ++ objs.flatten ++ rest).drop p = (objs.drop i).flatten ++ rest := by
  intro objs
  induction objs with
  | nil => intro pre rest i p h; simp [offsets] at h
  | cons o objs ih =>
    intro pre rest i p h
    cases i with
    | zero =>
      rw [offsets] at h
      rw [List.get?_cons_zero] at h
      have hp : p = pre.length := by
        injection h with h; exact h.symm
      subst hp
      rw [List.drop_zero, List.append_assoc]
      exact List.drop_left pre _
    | succ i =>
      rw [offsets] at h
      rw [List.get?_cons_succ] at h
      have h2 : (offsets (pre ++ o).length objs).get? i = some p := by
        rw [List.length_append]; exact h
      have h3 := ih (pre ++ o) rest i p h2
      rw [List.drop_succ_cons, List.flatten_cons]
      have hassoc : pre ++ (o ++ objs.flatten) ++ rest = (pre ++ o) ++ objs.flatten ++ rest := by
        simp [List.append_assoc]
      rw [hassoc]
      exact h3

theorem exists_suffix_of_take (o A R : List Nat) (h : o.take A.length = A) :
    ∃ t, o ++ R = A ++ t := by
  refine ⟨o.drop A.length ++ R, ?_⟩
  conv_lhs => rw [← List.take_append_drop A.length o]
  rw [h, List.append_assoc]

/-- C5.  Cross-reference integrity: for each object number `n` from 1 to 6,
the `n`-th offset listed in the cross-reference table (its zero-padded digits
reading back as the recorded position) equals the byte position in the
assembled file at which the bytes `"<n> 0 obj"` begin; object ids are
1-indexed and contiguous. -/
theorem pdf_xref_offsets_integrity (cs : List Nat) (i p : Nat)
    (h : (xrefPositions cs).get? i = some p) :
    ((xrefPositions cs).map xrefEntry).get? i = some (xrefEntry p)
    ∧ decVal (pad10 p) = p
    ∧ ∃ t, (pdfFileOf cs).drop p = asciiBytes (natToChars (i + 1) ++ (" 0 obj").data) ++ t := by
  refine ⟨?_, decVal_pad10 p, ?_⟩
  · rw [List.get?_map, h]; rfl
  · have hlen : (xrefPositions cs).length = 6 := rfl
    have hi : i < 6 := by
      by_contra hge
      push_neg at hge
      rw [List.get?_eq_none.mpr (by rw [hlen]; exact hge)] at h
      exact Option.noConfusion h
    have hdrop : (pdfFileOf cs).drop p
        = ((objectsList cs).drop i).flatten ++ (xrefBytes cs ++ trailerBytes cs) := by
      have hfile : pdfFileOf cs
          = headerBytes ++ (objectsList cs).flatten ++ (xrefBytes cs ++ trailerBytes cs) := by
        rw [pdfFileOf]
        simp [List.append_assoc]
      rw [hfile]
      exact drop_offsets_eq (objectsList cs) headerBytes (xrefBytes cs ++ trailerBytes cs) i p h
    rw [hdrop]
    interval_cases i
    · have hL : ((objectsList cs).drop 0).flatten ++ (xrefBytes cs ++ trailerBytes cs)
          = obj1 ++ (obj2 ++ (obj3 ++ (obj4 ++ (obj5 ++ (obj6 cs
              ++ (xrefBytes cs ++ trailerBytes cs)))))) := by
        simp [objectsList, List.append_assoc]
      rw [hL]
      refine exists_suffix_of_take obj1 _ _ ?_
      decide
    · have hL : ((objectsList cs).drop 1).flatten ++ (xrefBytes cs ++ trailerBytes cs)
          = obj2 ++ (obj3 ++ (obj4 ++ (obj5 ++ (obj6 cs
              ++ (xrefBytes cs ++ trailerBytes cs))))) := by
        simp [objectsList, List.append_assoc]
      rw [hL]
      refine exists_suffix_of_take obj2 _ _ ?_
      decide
    · have hL : ((objectsList cs).drop 2).flatten ++ (xrefBytes cs ++ trailerBytes cs)
          = obj3 ++ (obj4 ++ (obj5 ++ (obj6 cs ++ (xrefBytes cs ++ trailerBytes cs)))) := by
        simp [objectsList, List.append_assoc]
      rw [hL]
      refine exists_suffix_of_take obj3 _ _ ?_
      decide
    · have hL : ((objectsList cs).drop 3).flatten ++ (xrefBytes cs ++ trailerBytes cs)
          = obj4 ++ (obj5 ++ (obj6 cs ++ (xrefBytes cs ++ trailerBytes cs))) := by
        simp [objectsList, List.append_assoc]
      rw [hL]
      refine exists_suffix_of_take obj4 _ _ ?_
      decide
    · have hL : ((objectsList cs).drop 4).flatten ++ (xrefBytes cs ++ trailerBytes cs)
          = obj5 ++ (obj6 cs ++ (xrefBytes cs ++ trailerBytes cs)) := by
        simp [objectsList, List.append_assoc]
      rw [hL]
      refine exists_suffix_of_take obj5 _ _ ?_
      decide
    · have hL : ((objectsList cs).drop 5).flatten ++ (xrefBytes cs ++ trailerBytes cs)
          = obj6 cs ++ (xrefBytes cs ++ trailerBytes cs) := by
        simp [objectsList, List.append_assoc]
      rw [hL]
      refine exists_suffix_of_take (obj6 cs) _ _ ?_
      rw [obj6, List.append_assoc, List.append_assoc]
      rw [List.take_append_of_le_length (by decide)]
      decide

/-- C5 (witness): the theorem applied to the first xref entry of the file
built from an empty content stream. -/
theorem pdf_xref_offsets_integrity_witness :
    (xrefPositions []).get? 0 = some 9
    ∧ (((xrefPositions []).map xrefEntry).get? 0 = some (xrefEntry 9)
      ∧ decVal (pad10 9) = 9
      ∧ ∃ t, (pdfFileOf []).drop 9 = asciiBytes (natToChars (0 + 1) ++ (" 0 obj").data) ++ t) :=
  ⟨by decide, pdf_xref_offsets_integrity [] 0 9 (by decide)⟩

/-- C7.  Determinism: the assembled byte output is a pure function of the
title and section content — two runs with equal content produce byte-identical
output (the embedding of the pipeline takes no other input: no time,
randomness or environment enters `pdf_bytes`). -/
theorem pdf_bytes_deterministic (t1 t2 : List Char) (s1 s2 : List Body)
    (ht : t1 = t2) (hs : s1 = s2) : pdf_bytes t1 s1 = pdf_bytes t2 s2 := by
  rw [ht, hs]

/-- C7 (witness): the theorem applied to two runs on the same concrete
content. -/
theorem pdf_bytes_deterministic_witness :
    pdf_bytes ['T'] [Body.sec ['H'] [['x']]] = pdf_bytes ['T'] [Body.sec ['H'] [['x']]] :=
  pdf_bytes_deterministic ['T'] ['T'] [Body.sec ['H'] [['x']]] [Body.sec ['H'] [['x']]] rfl rfl

/-- C8.  Encoding never errors: building the content stream is total — every
character of the operator text yields exactly one byte, characters with code
points above 255 being silently replaced by `?` (63) rather than failing. -/
theorem content_encoding_never_errors (ps : List Placement) (i : Nat) (c : Char)
    (h : ((ps.map placementOps).flatten).get? i = some c) :
    (contentStreamBytes ps).length = ((ps.map placementOps).flatten).length
    ∧ (contentStreamBytes ps).get? i = some (latin1Byte c)
    ∧ (255 < c.toNat → (contentStreamBytes ps).get? i = some 63) := by
  refine ⟨by rw [contentStreamBytes, encodeLatin1Replace, List.length_map], ?_, ?_⟩
  · rw [contentStreamBytes, encodeLatin1Replace, List.get?_map, h]
    rfl
  · intro hc
    rw [contentStreamBytes, encodeLatin1Replace, List.get?_map, h]
    have hb : latin1Byte c = 63 := by
      rw [latin1Byte, if_neg]
      omega
    exact congrArg some hb

/-- C8 (witness): a placement whose font string contains `€` (code point
8364, not Latin-1): the byte at its position in the content stream is 63. -/
theorem content_encoding_never_errors_witness :
    (([(⟨[], 0, 0, ['€'], 0⟩ : Placement)].map placementOps).flatten).get? 4 = some '€'
    ∧ ((contentStreamBytes [⟨[], 0, 0, ['€'], 0⟩]).length
        = (([(⟨[], 0, 0, ['€'], 0⟩ : Placement)].map placementOps).flatten).length
      ∧ (contentStreamBytes [⟨[], 0, 0, ['€'], 0⟩]).get? 4 = some (latin1Byte '€')
      ∧ (255 < '€'.toNat → (contentStreamBytes [⟨[], 0, 0, ['€'], 0⟩]).get? 4 = some 63)) :=
  ⟨by decide, content_encoding_never_errors [⟨[], 0, 0, ['€'], 0⟩] 4 '€' (by decide)⟩

/-! ### Generic lemmas about `wordsBy` (maximal runs of non-separator
characters) -/

theorem takeWhile_append_all (q : Char → Bool) :
    ∀ (a b : List Char), (∀ x ∈ a, q x = true) →
      (a ++ b).takeWhile q = a ++ b.takeWhile q := by
  intro a
  induction a with
  | nil => intro b _; rfl
  | cons c a ih =>
    intro b h
    rw [List.cons_append, List.takeWhile_cons, if_pos (h c (by simp))]
    rw [ih b (fun x hx => h x (by simp [hx]))]
    rfl

theorem dropWhile_append_all (q : Char → Bool) :
    ∀ (a b : List Char), (∀ x ∈ a, q x = true) →
      (a ++ b).dropWhile q = b.dropWhile q := by
  intro a
  induction a with
  | nil => intro b _; rfl
  | cons c a ih =>
    intro b h
    rw [List.cons_append, List.dropWhile_cons]
    rw [h c (by simp)]
    simp only [if_true]
    exact ih b (fun x hx => h x (by simp [hx]))

theorem mem_takeWhile_pred (q : Char → Bool) :
    ∀ (l : List Char) (x : Char), x ∈ l.takeWhile q → q x = true := by
  intro l
  induction l with
  | nil => intro x hx; simp [List.takeWhile] at hx
  | cons c l ih =>
    intro x hx
    rw [List.takeWhile_cons] at hx
    by_cases hc : q c = true
    · rw [if_pos hc] at hx
      rcases List.mem_cons.mp hx with h | h
      · subst h; exact hc
      · exact ih x h
    · rw [if_neg hc] at hx
      simp at hx

theorem dropWhile_head_false (q : Char → Bool) :
    ∀ (l : List Char) (c : Char) (t : List Char),
      l.dropWhile q = c :: t → q c = false := by
  intro l
  induction l with
  | nil => intro c t h; simp [List.dropWhile] at h
  | cons a l ih =>
    intro c t h
    rw [List.dropWhile_cons] at h
    by_cases ha : q a = true
    · rw [if_pos ha] at h
      exact ih c t h
    · rw [if_neg ha] at h
      injection h with h1 _
      subst h1
      exact Bool.eq_false_iff.mpr ha

theorem dropWhile_length_le (q : Char → Bool) :
    ∀ (l : List Char), (l.dropWhile q).length ≤ l.length := by
  intro l
  induction l with
  | nil => simp [List.dropWhile]
  | cons c l ih =>
    rw [List.dropWhile_cons]
    by_cases h : q c = true
    · rw [if_pos h]
      calc (l.dropWhile q).length ≤ l.length := ih
      _ ≤ (c :: l).length := by simp
    · rw [if_neg h]

theorem runsF_fuel_eq (p : Char → Bool) :
    ∀ f g (l : List Char), l.length ≤ f → l.length ≤ g → runsF p f l = runsF p g l := by
  intro f
  induction f with
  | zero =>
    intro g l hf _
    have hl : l = [] := List.length_eq_zero.mp (Nat.le_zero.mp hf)
    subst hl
    cases g <;> rfl
  | succ f ih =>
    intro g l hf hg
    cases l with
    | nil => cases g <;> rfl
    | cons c cs =>
      cases g with
      | zero => simp at hg
      | succ g =>
        simp only [runsF]
        by_cases hc : p c = true
        · rw [if_pos hc, if_pos hc]
          exact ih g cs (by simpa using hf) (by simpa using hg)
        · have hc' : ¬ (p c = true) := hc
          rw [if_neg hc', if_neg hc']
          have hd := dropWhile_length_le (fun d => !p d) cs
          congr 1
          exact ih g _ (by simp at hf; omega) (by simp at hg; omega)

theorem wordsBy_nil (p : Char → Bool) : wordsBy p [] = [] := rfl

theorem wordsBy_cons_sep (p : Char → Bool) (c : Char) (cs : List Char) (h : p c = true) :
    wordsBy p (c :: cs) = wordsBy p cs := by
  show runsF p (cs.length + 1) (c :: cs) = runsF p cs.length cs
  simp only [runsF, if_pos h]

theorem wordsBy_cons_word (p : Char → Bool) (c : Char) (cs : List Char) (h : p c = false) :
    wordsBy p (c :: cs) = (c :: cs.takeWhile (fun d => !p d))
      :: wordsBy p (cs.dropWhile (fun d => !p d)) := by
  show runsF p (cs.length + 1) (c :: cs) = _
  have hne : ¬ (p c = true) := by rw [h]; exact Bool.false_ne_true
  simp only [runsF, if_neg hne]
  congr 1
  exact runsF_fuel_eq p cs.length _ _
    (dropWhile_length_le (fun d => !p d) cs) (le_refl _)

theorem wordsBy_all_sep (p : Char → Bool) :
    ∀ (s : List Char), (∀ c ∈ s, p c = true) → wordsBy p s = [] := by
  intro s
  induction s with
  | nil => intro _; rfl
  | cons c s ih =>
    intro h
    rw [wordsBy_cons_sep p c s (h c (by simp))]
    exact ih (fun x hx => h x (by simp [hx]))

theorem wordsBy_sep_front (p : Char → Bool) :
    ∀ (s l : List Char), (∀ c ∈ s, p c = true) → wordsBy p (s ++ l) = wordsBy p l := by
  intro s
  induction s with
  | nil => intro l _; rfl
  | cons c s ih =>
    intro l h
    rw [List.cons_append, wordsBy_cons_sep p c _ (h c (by simp))]
    exact ih l (fun x hx => h x (by simp [hx]))

theorem wordsBy_word_front (p : Char → Bool) (w X : List Char)
    (hw : w ≠ []) (hall : ∀ c ∈ w, p c = false)
    (hX : X = [] ∨ ∃ d t, X = d :: t ∧ p d = true) :
    wordsBy p (w ++ X) = w :: wordsBy p X := by
  cases w with
  | nil => exact absurd rfl hw
  | cons c w =>
    have htX : X.takeWhile (fun d => !p d) = [] := by
      rcases hX with h | ⟨d, t, hdt, hd⟩
      · rw [h]; rfl
      · rw [hdt, List.takeWhile_cons, hd]
        simp
    have hdX : X.dropWhile (fun d => !p d) = X := by
      rcases hX with h | ⟨d, t, hdt, hd⟩
      · rw [h]; rfl
      · rw [hdt, List.dropWhile_cons, hd]
        simp
    rw [List.cons_append, wordsBy_cons_word p c _ (hall c (by simp))]
    have hwq : ∀ x ∈ w, (fun d => !p d) x = true := by
      intro x hx
      simp [hall x (by simp [hx])]
    rw [takeWhile_append_all _ w X hwq, dropWhile_append_all _ w X hwq, htX, hdX]
    simp

theorem wordsBy_append_sep_n (p : Char → Bool) (s : List Char)
    (hs : s ≠ []) (hsep : ∀ c ∈ s, p c = true) :
    ∀ n (a b : List Char), a.length ≤ n →
      wordsBy p (a ++ (s ++ b)) = wordsBy p a ++ wordsBy p b := by
  intro n
  induction n with
  | zero =>
    intro a b ha
    have h0 : a = [] := List.length_eq_zero.mp (Nat.le_zero.mp ha)
    subst h0
    rw [List.nil_append, wordsBy_sep_front p s b hsep]
    rfl
  | succ n ih =>
    intro a b ha
    cases a with
    | nil =>
      rw [List.nil_append, wordsBy_sep_front p s b hsep]
      rfl
    | cons c a2 =>
      by_cases hc : p c = true
      · rw [List.cons_append, wordsBy_cons_sep p c _ hc, wordsBy_cons_sep p c a2 hc]
        exact ih a2 b (by simpa using ha)
      · have hc' : p c = false := Bool.eq_false_iff.mpr hc
        have ha2 : a2.length ≤ n := by simpa using ha
        rcases hrest : a2.dropWhile (fun d => !p d) with _ | ⟨d, v⟩
        · -- a2 consists only of non-separator characters
          have htwa : a2.takeWhile (fun d => !p d) = a2 := by
            have h := List.takeWhile_append_dropWhile (fun d => !p d) a2
            rw [hrest, List.append_nil] at h
            exact h
          have hall : ∀ x ∈ a2, (fun d => !p d) x = true := by
            intro x hx
            rw [← htwa] at hx
            exact mem_takeWhile_pred _ a2 x hx
          cases s with
          | nil => exact absurd rfl hs
          | cons e s2 =>
            have he : p e = true := hsep e (by simp)
            rw [List.cons_append, wordsBy_cons_word p c _ hc']
            rw [takeWhile_append_all _ a2 _ hall, dropWhile_append_all _ a2 _ hall]
            have ht : ((e :: s2) ++ b).takeWhile (fun d => !p d) = [] := by
              rw [List.cons_append, List.takeWhile_cons]
              simp [he]
            have hd : ((e :: s2) ++ b).dropWhile (fun d => !p d) = (e :: s2) ++ b := by
              rw [List.cons_append, List.dropWhile_cons]
              simp [he]
            rw [ht, hd, wordsBy_sep_front p (e :: s2) b hsep]
            rw [wordsBy_cons_word p c a2 hc', htwa, hrest]
            simp [wordsBy_nil]
        · -- a2 has a separator at position `|u|`
          have hdq : (fun d => !p d) d = false := dropWhile_head_false _ a2 d v hrest
          have hdp : p d = true := by simpa using hdq
          have hsplit : a2.takeWhile (fun d => !p d) ++ (d :: v) = a2 := by
            rw [← hrest]
            exact List.takeWhile_append_dropWhile (fun d => !p d) a2
          have hallu : ∀ x ∈ a2.takeWhile (fun d => !p d), (fun d => !p d) x = true :=
            fun x hx => mem_takeWhile_pred _ a2 x hx
          have hvlen : v.length ≤ n := by
            have h1 := dropWhile_length_le (fun d => !p d) a2
            rw [hrest] at h1
            simp at h1
            omega
          rw [List.cons_append, wordsBy_cons_word p c _ hc']
          have hA : a2 ++ (s ++ b)
              = a2.takeWhile (fun d => !p d) ++ ((d :: v) ++ (s ++ b)) := by
            conv_lhs => rw [← hsplit]
            rw [List.append_assoc]
          have htw : (a2 ++ (s ++ b)).takeWhile (fun d => !p d)
              = a2.takeWhile (fun d => !p d) := by
            rw [hA, takeWhile_append_all _ _ _ hallu, List.cons_append,
              List.takeWhile_cons]
            simp [hdp]
          have hdw : (a2 ++ (s ++ b)).dropWhile (fun d => !p d) = (d :: v) ++ (s ++ b) := by
            rw [hA, dropWhile_append_all _ _ _ hallu, List.cons_append,
              List.dropWhile_cons]
            simp [hdp]
          rw [htw, hdw, List.cons_append, wordsBy_cons_sep p d _ hdp]
          rw [ih v b hvlen]
          rw [wordsBy_cons_word p c a2 hc', hrest, wordsBy_cons_sep p d v hdp]
          simp

/-- Any nonempty all-separator string placed between two strings splits the
word list. -/
theorem wordsBy_append_sep (p : Char → Bool) (s : List Char)
    (hs : s ≠ []) (hsep : ∀ c ∈ s, p c = true) (a b : List Char) :
    wordsBy p (a ++ (s ++ b)) = wordsBy p a ++ wordsBy p b :=
  wordsBy_append_sep_n p s hs hsep a.length a b (le_refl _)

theorem wordsBy_joinSpace (p : Char → Bool) (hsp : p ' ' = true) :
    ∀ L, wordsBy p (joinSpace L) = (L.map (wordsBy p)).flatten := by
  intro L
  induction L with
  | nil => rfl
  | cons l L ih =>
    cases L with
    | nil => simp [joinSpace]
    | cons l2 L2 =>
      have hj : joinSpace (l :: l2 :: L2) = l ++ ([' '] ++ joinSpace (l2 :: L2)) := rfl
      rw [hj, wordsBy_append_sep p [' '] (by simp)
        (by intro c hc; simp at hc; subst hc; exact hsp) l _]
      rw [ih]
      simp

theorem takeWhile_map_id (p : Char → Bool) (g : Char → Char)
    (hg1 : ∀ c, p (g c) = p c) (hg2 : ∀ c, p c = false → g c = c) :
    ∀ cs : List Char,
      (cs.map g).takeWhile (fun d => !p d) = cs.takeWhile (fun d => !p d) := by
  intro cs
  induction cs with
  | nil => rfl
  | cons c cs ih =>
    rw [List.map_cons, List.takeWhile_cons, List.takeWhile_cons]
    by_cases hc : p c = true
    · have h1 : (!p (g c)) = false := by rw [hg1, hc]; rfl
      have h2 : (!p c) = false := by rw [hc]; rfl
      rw [h1, h2]
      simp
    · have hc' : p c = false := Bool.eq_false_iff.mpr hc
      have h1 : (!p (g c)) = true := by rw [hg1, hc']; rfl
      have h2 : (!p c) = true := by rw [hc']; rfl
      rw [h1, h2, hg2 c hc']
      simp only [if_true]
      rw [ih]

theorem dropWhile_map_comm (p : Char → Bool) (g : Char → Char)
    (hg1 : ∀ c, p (g c) = p c) :
    ∀ cs : List Char,
      (cs.map g).dropWhile (fun d => !p d) = (cs.dropWhile (fun d => !p d)).map g := by
  intro cs
  induction cs with
  | nil => rfl
  | cons c cs ih =>
    rw [List.map_cons, List.dropWhile_cons, List.dropWhile_cons]
    by_cases hc : p c = true
    · have h1 : (!p (g c)) = false := by rw [hg1, hc]; rfl
      have h2 : (!p c) = false := by rw [hc]; rfl
      rw [h1, h2]
      simp
    · have hc' : p c = false := Bool.eq_false_iff.mpr hc
      have h1 : (!p (g c)) = true := by rw [hg1, hc']; rfl
      have h2 : (!p c) = true := by rw [hc']; rfl
      rw [h1, h2]
      simp only [if_true]
      exact ih

theorem wordsBy_map_pres (p : Char → Bool) (g : Char → Char)
    (hg1 : ∀ c, p (g c) = p c) (hg2 : ∀ c, p c = false → g c = c) :
    ∀ n (l : List Char), l.length ≤ n → wordsBy p (l.map g) = wordsBy p l := by
  intro n
  induction n with
  | zero =>
    intro l hl
    have h0 : l = [] := List.length_eq_zero.mp (Nat.le_zero.mp hl)
    subst h0
    rfl
  | succ n ih =>
    intro l hl
    cases l with
    | nil => rfl
    | cons c cs =>
      rw [List.map_cons]
      by_cases hc : p c = true
      · rw [wordsBy_cons_sep p (g c) _ (by rw [hg1]; exact hc),
          wordsBy_cons_sep p c cs hc]
        exact ih cs (by simpa using hl)
      · have hc' : p c = false := Bool.eq_false_iff.mpr hc
        rw [hg2 c hc']
        rw [wordsBy_cons_word p c _ hc', wordsBy_cons_word p c cs hc']
        rw [takeWhile_map_id p g hg1 hg2 cs, dropWhile_map_comm p g hg1 cs]
        congr 1
        have hlen : (cs.dropWhile (fun d => !p d)).length ≤ n := by
          have := dropWhile_length_le (fun d => !p d) cs
          simp at hl
          omega
        exact ih _ hlen

theorem dropWhile_cons_false (q : Char → Bool) (z : Char) (Z : List Char)
    (h : q z = false) : (z :: Z).dropWhile q = z :: Z := by
  rw [List.dropWhile_cons, h]
  simp

theorem takeWhile_cons_false (q : Char → Bool) (z : Char) (Z : List Char)
    (h : q z = false) : (z :: Z).takeWhile q = [] := by
  rw [List.takeWhile_cons, h]
  simp

theorem expandTabs_tw_dw (p : Char → Bool) (hsp : p ' ' = true) (ht : p '\t' = true)
    (hn : p '\n' = true) (hr : p '\r' = true) :
    ∀ (l : List Char) (col : Nat),
      (expandTabs l col).takeWhile (fun d => !p d) = l.takeWhile (fun d => !p d)
      ∧ ∃ col2, (expandTabs l col).dropWhile (fun d => !p d)
          = expandTabs (l.dropWhile (fun d => !p d)) col2 := by
  intro l
  induction l with
  | nil => intro col; exact ⟨rfl, col, rfl⟩
  | cons c rest ih =>
    intro col
    by_cases hct : c = '\t'
    · subst hct
      have he : expandTabs ('\t' :: rest) col
          = List.replicate (8 - col % 8) ' ' ++ expandTabs rest (col + (8 - col % 8)) := by
        simp [expandTabs]
      have hm : 8 - col % 8 = (7 - col % 8) + 1 := by omega
      have hcons : expandTabs ('\t' :: rest) col
          = ' ' :: (List.replicate (7 - col % 8) ' '
              ++ expandTabs rest (col + (8 - col % 8))) := by
        rw [he, hm, List.replicate_succ, List.cons_append]
      have hqs : (fun d => !p d) ' ' = false := by simp [hsp]
      have hqt : (fun d => !p d) '\t' = false := by simp [ht]
      constructor
      · rw [hcons, takeWhile_cons_false _ _ _ hqs, takeWhile_cons_false _ _ _ hqt]
      · refine ⟨col, ?_⟩
        rw [hcons, dropWhile_cons_false _ _ _ hqs,
          dropWhile_cons_false _ _ _ hqt, ← hcons]
    · by_cases hcn : c = '\n' ∨ c = '\r'
      · have hpc : p c = true := by rcases hcn with h | h <;> (subst h; assumption)
        have he : expandTabs (c :: rest) col = c :: expandTabs rest 0 := by
          simp [expandTabs, hct, hcn]
        have hqc : (fun d => !p d) c = false := by simp [hpc]
        constructor
        · rw [he, takeWhile_cons_false _ _ _ hqc, takeWhile_cons_false _ _ _ hqc]
        · refine ⟨col, ?_⟩
          rw [he, dropWhile_cons_false _ _ _ hqc, dropWhile_cons_false _ _ _ hqc, ← he]
      · have he : expandTabs (c :: rest) col = c :: expandTabs rest (col + 1) := by
          simp [expandTabs, hct, hcn]
        by_cases hpc : p c = true
        · have hqc : (fun d => !p d) c = false := by simp [hpc]
          constructor
          · rw [he, takeWhile_cons_false _ _ _ hqc, takeWhile_cons_false _ _ _ hqc]
          · refine ⟨col, ?_⟩
            rw [he, dropWhile_cons_false _ _ _ hqc, dropWhile_cons_false _ _ _ hqc, ← he]
        · have hpc' : p c = false := Bool.eq_false_iff.mpr hpc
          obtain ⟨ihT, col2, ihD⟩ := ih (col + 1)
          constructor
          · rw [he, List.takeWhile_cons, List.takeWhile_cons]
            simp [hpc', ihT]
          · refine ⟨col2, ?_⟩
            rw [he, List.dropWhile_cons, List.dropWhile_cons]
            simp [hpc', ihD]

theorem wordsBy_expandTabs (p : Char → Bool) (hsp : p ' ' = true) (ht : p '\t' = true)
    (hn : p '\n' = true) (hr : p '\r' = true) :
    ∀ n (l : List Char) (col : Nat), l.length ≤ n →
      wordsBy p (expandTabs l col) = wordsBy p l := by
  intro n
  induction n with
  | zero =>
    intro l col hl
    have h0 : l = [] := List.length_eq_zero.mp (Nat.le_zero.mp hl)
    subst h0
    rfl
  | succ n ih =>
    intro l col hl
    cases l with
    | nil => rfl
    | cons c rest =>
      have hrest : rest.length ≤ n := by simpa using hl
      by_cases hct : c = '\t'
      · subst hct
        have he : expandTabs ('\t' :: rest) col
            = List.replicate (8 - col % 8) ' ' ++ expandTabs rest (col + (8 - col % 8)) := by
          simp [expandTabs]
        rw [he, wordsBy_sep_front p _ _ (by
          intro x hx
          rw [List.eq_of_mem_replicate hx]
          exact hsp)]
        rw [ih rest _ hrest, wordsBy_cons_sep p '\t' rest ht]
      · by_cases hcn : c = '\n' ∨ c = '\r'
        · have hpc : p c = true := by rcases hcn with h | h <;> (subst h; assumption)
          have he : expandTabs (c :: rest) col = c :: expandTabs rest 0 := by
            simp [expandTabs, hct, hcn]
          rw [he, wordsBy_cons_sep p c _ hpc, ih rest _ hrest,
            wordsBy_cons_sep p c rest hpc]
        · have he : expandTabs (c :: rest) col = c :: expandTabs rest (col + 1) := by
            simp [expandTabs, hct, hcn]
          by_cases hpc : p c = true
          · rw [he, wordsBy_cons_sep p c _ hpc, ih rest _ hrest,
              wordsBy_cons_sep p c rest hpc]
          · have hpc' : p c = false := Bool.eq_false_iff.mpr hpc
            obtain ⟨ihT, col2, ihD⟩ := expandTabs_tw_dw p hsp ht hn hr rest (col + 1)
            rw [he, wordsBy_cons_word p c _ hpc', wordsBy_cons_word p c rest hpc']
            rw [ihT, ihD]
            congr 1
            have hdl : (rest.dropWhile (fun d => !p d)).length ≤ n := by
              have := dropWhile_length_le (fun d => !p d) rest
              omega
            exact ih _ col2 hdl

theorem replaceWsChar_kind (p : Char → Bool)
    (h5 : p '\t' = true ∧ p '\n' = true ∧ p '\x0b' = true ∧ p '\x0c' = true
      ∧ p '\r' = true ∧ p ' ' = true) :
    (∀ c, p (replaceWsChar c) = p c) ∧ (∀ c, p c = false → replaceWsChar c = c) := by
  obtain ⟨h1, h2, h3, h4, h5', h6⟩ := h5
  constructor
  · intro c
    rw [replaceWsChar]
    by_cases hc : c = '\t' ∨ c = '\n' ∨ c = '\x0b' ∨ c = '\x0c' ∨ c = '\r'
    · rw [if_pos hc]
      rcases hc with h | h | h | h | h <;> subst h
      · rw [h6, h1]
      · rw [h6, h2]
      · rw [h6, h3]
      · rw [h6, h4]
      · rw [h6, h5']
    · rw [if_neg hc]
  · intro c hpc
    rw [replaceWsChar, if_neg]
    rintro (h | h | h | h | h) <;> subst h <;> simp_all

/-- Munging never changes the word structure: tab expansion and
whitespace translation only rewrite separator characters into separator
characters. -/
theorem wordsBy_munge (p : Char → Bool)
    (h5 : p '\t' = true ∧ p '\n' = true ∧ p '\x0b' = true ∧ p '\x0c' = true
      ∧ p '\r' = true ∧ p ' ' = true) (t : List Char) :
    wordsBy p (munge t) = wordsBy p t := by
  obtain ⟨hg1, hg2⟩ := replaceWsChar_kind p h5
  rw [munge]
  rw [wordsBy_map_pres p replaceWsChar hg1 hg2 (expandTabs t 0).length _ (le_refl _)]
  exact wordsBy_expandTabs p h5.2.2.2.2.2 h5.1 h5.2.1 h5.2.2.2.2.1 t.length t 0 (le_refl _)

theorem pyWords_munge (t : List Char) : pyWords (munge t) = pyWords t :=
  wordsBy_munge isPySpace (by refine ⟨?_, ?_, ?_, ?_, ?_, ?_⟩ <;> decide) t

theorem asciiTokens_munge (t : List Char) : asciiTokens (munge t) = asciiTokens t :=
  wordsBy_munge isAsciiWs (by refine ⟨?_, ?_, ?_, ?_, ?_, ?_⟩ <;> decide) t

/-! ### Properties of the chunk splitter -/

theorem splitChunksF_fuel_eq :
    ∀ f g (l : List Char), l.length ≤ f → l.length ≤ g →
      splitChunksF f l = splitChunksF g l := by
  intro f
  induction f with
  | zero =>
    intro g l hf _
    have h0 : l = [] := List.length_eq_zero.mp (Nat.le_zero.mp hf)
    subst h0
    cases g <;> rfl
  | succ f ih =>
    intro g l hf hg
    cases l with
    | nil => cases g <;> rfl
    | cons c cs =>
      cases g with
      | zero => simp at hg
      | succ g =>
        simp only [splitChunksF]
        congr 1
        have hd := dropWhile_length_le (sameKind c) cs
        exact ih g _ (by simp at hf; omega) (by simp at hg; omega)

theorem pySplitChunks_cons (c : Char) (cs : List Char) :
    pySplitChunks (c :: cs) = (c :: cs.takeWhile (sameKind c))
      :: pySplitChunks (cs.dropWhile (sameKind c)) := by
  show splitChunksF (cs.length + 1) (c :: cs) = _
  simp only [splitChunksF]
  congr 1
  exact splitChunksF_fuel_eq _ _ _ (dropWhile_length_le _ cs) (le_refl _)

theorem pySplitChunks_flatten :
    ∀ n (l : List Char), l.length ≤ n → (pySplitChunks l).flatten = l := by
  intro n
  induction n with
  | zero =>
    intro l hl
    have h0 : l = [] := List.length_eq_zero.mp (Nat.le_zero.mp hl)
    subst h0
    rfl
  | succ n ih =>
    intro l hl
    cases l with
    | nil => rfl
    | cons c cs =>
      rw [pySplitChunks_cons, List.flatten_cons]
      have hd := dropWhile_length_le (sameKind c) cs
      rw [ih _ (by simp at hl; omega)]
      rw [List.cons_append]
      congr 1
      exact List.takeWhile_append_dropWhile (sameKind c) cs

theorem sameKind_eq (c x : Char) (h : sameKind c x = true) :
    isAsciiWs x = isAsciiWs c := by
  simpa [sameKind] using h

theorem pySplitChunks_ok :
    ∀ n (l : List Char), l.length ≤ n → ChunksOK (pySplitChunks l) := by
  intro n
  induction n with
  | zero =>
    intro l hl
    have h0 : l = [] := List.length_eq_zero.mp (Nat.le_zero.mp hl)
    subst h0
    exact ⟨by simp [pySplitChunks, splitChunksF], List.chain'_nil⟩
  | succ n ih =>
    intro l hl
    cases l with
    | nil => exact ⟨by simp [pySplitChunks, splitChunksF], List.chain'_nil⟩
    | cons c cs =>
      rw [pySplitChunks_cons]
      have hd := dropWhile_length_le (sameKind c) cs
      obtain ⟨ihM, ihC⟩ := ih (cs.dropWhile (sameKind c)) (by simp at hl; omega)
      constructor
      · intro ch hch
        rcases List.mem_cons.mp hch with h | h
        · subst h
          refine ⟨by simp, ?_⟩
          intro x hx
          rcases List.mem_cons.mp hx with h | h
          · subst h; rfl
          · rw [sameKind_eq c x (mem_takeWhile_pred _ cs x h)]
            rfl
        · exact ihM ch h
      · rw [List.chain'_cons']
        refine ⟨?_, ihC⟩
        intro b hb
        rcases hdw : cs.dropWhile (sameKind c) with _ | ⟨d, t⟩
        · rw [hdw] at hb
          simp [pySplitChunks, splitChunksF] at hb
        · rw [hdw, pySplitChunks_cons] at hb
          simp only [List.head?_cons, Option.mem_def, Option.some.injEq] at hb
          subst hb
          have hdc : sameKind c d = false := dropWhile_head_false _ cs d t hdw
          show chunkKind (c :: cs.takeWhile (sameKind c)) ≠ chunkKind (d :: t.takeWhile (sameKind d))
          simp only [chunkKind]
          intro heq
          simp only [sameKind, beq_eq_false_iff_ne, ne_eq] at hdc
          exact hdc heq.symm

/-! ### Chunk classes and words -/

theorem isAsciiWs_isPySpace (c : Char) (h : isAsciiWs c = true) : isPySpace c = true := by
  simp only [isAsciiWs, decide_eq_true_eq] at h
  simp only [isPySpace, decide_eq_true_eq]
  omega

theorem pyWords_of_wsChunk (ch : List Char) (h : isWsChunk ch = true) : pyWords ch = [] :=
  wordsBy_all_sep isPySpace ch (fun c hc => by
    exact List.all_eq_true.mp h c hc)

theorem ws_of_ascii_chunk (ch : List Char)
    (hhom : ∀ c ∈ ch, isAsciiWs c = chunkKind ch) (hcl : chunkKind ch = true) :
    (∀ c ∈ ch, isPySpace c = true) ∧ isWsChunk ch = true ∧ pyWords ch = [] := by
  have hall : ∀ c ∈ ch, isPySpace c = true := by
    intro c hc
    exact isAsciiWs_isPySpace c (by rw [hhom c hc, hcl])
  refine ⟨hall, ?_, wordsBy_all_sep isPySpace ch hall⟩
  exact List.all_eq_true.mpr hall

theorem chunksOK_append (a b : List (List Char)) (h : ChunksOK (a ++ b)) :
    ChunksOK a ∧ ChunksOK b := by
  obtain ⟨hM, hC⟩ := h
  obtain ⟨hCa, hCb, -⟩ := List.chain'_append.mp hC
  exact ⟨⟨fun ch hch => hM ch (List.mem_append.mpr (Or.inl hch)), hCa⟩,
    ⟨fun ch hch => hM ch (List.mem_append.mpr (Or.inr hch)), hCb⟩⟩

theorem chunksOK_cons (ch : List (List Char)) (c : List Char) (h : ChunksOK (c :: ch)) :
    ChunksOK ch := by
  have := chunksOK_append [c] ch (by simpa using h)
  exact this.2

theorem chunkWords_nil : chunkWords [] = [] := rfl

theorem chunkWords_append (a b : List (List Char)) :
    chunkWords (a ++ b) = chunkWords a ++ chunkWords b := by
  simp [chunkWords]

theorem pyWords_flatten_chunks :
    ∀ n (c : List (List Char)), c.length ≤ n → ChunksOK c →
      pyWords c.flatten = chunkWords c := by
  intro n
  induction n with
  | zero =>
    intro c hc _
    have h0 : c = [] := List.length_eq_zero.mp (Nat.le_zero.mp hc)
    subst h0
    rfl
  | succ n ih =>
    intro c hc hok
    cases c with
    | nil => rfl
    | cons ch1 rest =>
      obtain ⟨hne1, hhom1⟩ := hok.1 ch1 (by simp)
      by_cases hcl : chunkKind ch1 = true
      · obtain ⟨hall, -, hw⟩ := ws_of_ascii_chunk ch1 hhom1 hcl
        rw [List.flatten_cons]
        show wordsBy isPySpace (ch1 ++ rest.flatten) = chunkWords (ch1 :: rest)
        rw [wordsBy_sep_front isPySpace ch1 _ hall]
        show pyWords rest.flatten = chunkWords (ch1 :: rest)
        rw [ih rest (by simp at hc; omega) (chunksOK_cons rest ch1 hok)]
        simp [chunkWords, hw]
      · cases rest with
        | nil =>
          simp [chunkWords]
        | cons ch2 rest2 =>
          obtain ⟨hne2, hhom2⟩ := hok.1 ch2 (by simp)
          have hR : chunkKind ch1 ≠ chunkKind ch2 := (List.chain'_cons.mp hok.2).1
          have hcl2 : chunkKind ch2 = true := by
            cases h2 : chunkKind ch2
            · exfalso
              apply hR
              rw [h2]
              exact Bool.eq_false_iff.mpr hcl
            · rfl
          obtain ⟨hall2, -, hw2⟩ := ws_of_ascii_chunk ch2 hhom2 hcl2
          have hflat : (ch1 :: ch2 :: rest2).flatten = ch1 ++ (ch2 ++ rest2.flatten) := by
            rw [List.flatten_cons, List.flatten_cons]
          rw [hflat]
          show wordsBy isPySpace (ch1 ++ (ch2 ++ rest2.flatten))
            = chunkWords (ch1 :: ch2 :: rest2)
          rw [wordsBy_append_sep isPySpace ch2 hne2 hall2 ch1 rest2.flatten]
          show pyWords ch1 ++ pyWords rest2.flatten = chunkWords (ch1 :: ch2 :: rest2)
          have hok2 : ChunksOK rest2 :=
            chunksOK_cons rest2 ch2 (chunksOK_cons (ch2 :: rest2) ch1 hok)
          rw [ih rest2 (by simp at hc; omega) hok2]
          simp [chunkWords, hw2]

theorem asciiTokens_flatten_chunks :
    ∀ n (c : List (List Char)), c.length ≤ n → ChunksOK c →
      asciiTokens c.flatten = c.filter (fun ch => !chunkKind ch) := by
  intro n
  induction n with
  | zero =>
    intro c hc _
    have h0 : c = [] := List.length_eq_zero.mp (Nat.le_zero.mp hc)
    subst h0
    rfl
  | succ n ih =>
    intro c hc hok
    cases c with
    | nil => rfl
    | cons ch1 rest =>
      obtain ⟨hne1, hhom1⟩ := hok.1 ch1 (by simp)
      by_cases hcl : chunkKind ch1 = true
      · have hall : ∀ x ∈ ch1, isAsciiWs x = true := by
          intro x hx
          rw [hhom1 x hx, hcl]
        rw [List.flatten_cons]
        show wordsBy isAsciiWs (ch1 ++ rest.flatten)
          = List.filter (fun ch => !chunkKind ch) (ch1 :: rest)
        rw [wordsBy_sep_front isAsciiWs ch1 _ hall]
        show asciiTokens rest.flatten = List.filter (fun ch => !chunkKind ch) (ch1 :: rest)
        rw [ih rest (by simp at hc; omega) (chunksOK_cons rest ch1 hok)]
        rw [List.filter_cons]
        simp [hcl]
      · have hcl' : chunkKind ch1 = false := Bool.eq_false_iff.mpr hcl
        have hall1 : ∀ x ∈ ch1, isAsciiWs x = false := by
          intro x hx
          rw [hhom1 x hx, hcl']
        cases rest with
        | nil =>
          rw [List.flatten_cons, List.flatten_nil, List.append_nil]
          rw [List.filter_cons]
          simp only [hcl', Bool.not_false, if_true]
          have hwp := wordsBy_word_front isAsciiWs ch1 [] hne1 hall1 (Or.inl rfl)
          rw [List.append_nil] at hwp
          show wordsBy isAsciiWs ch1 = _
          rw [hwp]
          rfl
        | cons ch2 rest2 =>
          obtain ⟨hne2, hhom2⟩ := hok.1 ch2 (by simp)
          have hR : chunkKind ch1 ≠ chunkKind ch2 := (List.chain'_cons.mp hok.2).1
          have hcl2 : chunkKind ch2 = true := by
            cases h2 : chunkKind ch2
            · exfalso
              apply hR
              rw [h2, hcl']
            · rfl
          have hall2 : ∀ x ∈ ch2, isAsciiWs x = true := by
            intro x hx
            rw [hhom2 x hx, hcl2]
          have hflat : (ch1 :: ch2 :: rest2).flatten = ch1 ++ (ch2 ++ rest2.flatten) := by
            rw [List.flatten_cons, List.flatten_cons]
          have hX : ch2 ++ rest2.flatten = [] ∨
              ∃ d t, ch2 ++ rest2.flatten = d :: t ∧ isAsciiWs d = true := by
            cases hch2 : ch2 with
            | nil => exact absurd hch2 hne2
            | cons d t2 =>
              right
              exact ⟨d, t2 ++ rest2.flatten, by simp, hall2 d (by rw [hch2]; simp)⟩
          rw [hflat]
          show wordsBy isAsciiWs (ch1 ++ (ch2 ++ rest2.flatten))
            = List.filter (fun ch => !chunkKind ch) (ch1 :: ch2 :: rest2)
          rw [wordsBy_word_front isAsciiWs ch1 _ hne1 hall1 hX]
          rw [wordsBy_sep_front isAsciiWs ch2 _ hall2]
          have hok2 : ChunksOK rest2 :=
            chunksOK_cons rest2 ch2 (chunksOK_cons (ch2 :: rest2) ch1 hok)
          have hih : asciiTokens rest2.flatten
              = List.filter (fun ch => !chunkKind ch) rest2 :=
            ih rest2 (by simp at hc; omega) hok2
          rw [show wordsBy isAsciiWs rest2.flatten
            = List.filter (fun ch => !chunkKind ch) rest2 from hih]
          rw [List.filter_cons, List.filter_cons]
          simp [hcl', hcl2]

/-! ### The greedy line builder -/

theorem greedy_append (w : Nat) :
    ∀ (l : List (List Char)) (n : Nat), (greedy w n l).1 ++ (greedy w n l).2 = l := by
  intro l
  induction l with
  | nil => intro n; rfl
  | cons ch rest ih =>
    intro n
    by_cases h : n + ch.length ≤ w
    · simp only [greedy, if_pos h]
      rw [List.cons_append, ih]
    · simp only [greedy, if_neg h]
      rfl

theorem greedy_fst_empty (w : Nat) :
    ∀ (l : List (List Char)) (n : Nat), (greedy w n l).1 = [] →
      (greedy w n l).2 = l ∧ ∀ ch t, l = ch :: t → w < n + ch.length := by
  intro l n h
  cases l with
  | nil =>
    constructor
    · rfl
    · intro ch t ht
      simp at ht
  | cons ch rest =>
    by_cases hc : n + ch.length ≤ w
    · exfalso
      simp only [greedy, if_pos hc] at h
      exact List.cons_ne_nil _ _ h
    · simp only [greedy, if_neg hc]
      constructor
      · trivial
      · intro ch2 t ht
        injection ht with h1 _
        subst h1
        omega

theorem greedy_sum_le (w : Nat) :
    ∀ (l : List (List Char)) (n : Nat), (greedy w n l).1 ≠ [] →
      n + (((greedy w n l).1).map List.length).sum ≤ w := by
  intro l
  induction l with
  | nil => intro n h; exact absurd rfl h
  | cons ch rest ih =>
    intro n h
    by_cases hc : n + ch.length ≤ w
    · simp only [greedy, if_pos hc] at h ⊢
      simp only [List.map_cons, List.sum_cons]
      by_cases h2 : (greedy w (n + ch.length) rest).1 = []
      · rw [h2]
        simpa using hc
      · have := ih (n + ch.length) h2
        omega
    · simp only [greedy, if_neg hc] at h
      exact absurd rfl h

theorem buildLine_spec (w : Nat) (l : List (List Char)) :
    (l = [] ∧ buildLine w l = ([], []))
    ∨ ((greedy w 0 l).1 ≠ [] ∧ buildLine w l = greedy w 0 l)
    ∨ (∃ ch rest, l = ch :: rest ∧ w < ch.length ∧ buildLine w l = ([ch], rest)) := by
  cases l with
  | nil =>
    left
    exact ⟨rfl, rfl⟩
  | cons ch rest =>
    by_cases hni : (greedy w 0 (ch :: rest)).1 = []
    · right; right
      obtain ⟨h2, hbig⟩ := greedy_fst_empty w (ch :: rest) 0 hni
      refine ⟨ch, rest, rfl, by simpa using hbig ch rest rfl, ?_⟩
      rcases hg : greedy w 0 (ch :: rest) with ⟨g1, g2⟩
      rw [hg] at hni h2
      simp only [] at hni h2
      subst hni
      subst h2
      simp [buildLine, hg]
    · right; left
      refine ⟨hni, ?_⟩
      have hE : (greedy w 0 (ch :: rest)).1.isEmpty = false := by
        rcases hgg : (greedy w 0 (ch :: rest)).1 with _ | ⟨a, b⟩
        · exact absurd hgg hni
        · rfl
      simp [buildLine, hE]

theorem buildLine_append (w : Nat) (l : List (List Char)) :
    (buildLine w l).1 ++ (buildLine w l).2 = l := by
  rcases buildLine_spec w l with ⟨hl, he⟩ | ⟨_, he⟩ | ⟨ch, rest, hl, _, he⟩
  · rw [he, hl]; rfl
  · rw [he]; exact greedy_append w l 0
  · rw [he, hl]; rfl

theorem buildLine_fst_ne_nil (w : Nat) (l : List (List Char)) (h : l ≠ []) :
    (buildLine w l).1 ≠ [] := by
  rcases buildLine_spec w l with ⟨hl, _⟩ | ⟨hne, he⟩ | ⟨ch, rest, hl, _, he⟩
  · exact absurd hl h
  · rw [he]; exact hne
  · rw [he]; simp

theorem buildLine_snd_le (w : Nat) (l : List (List Char)) :
    (buildLine w l).2.length ≤ l.length := by
  have h := buildLine_append w l
  have := congrArg List.length h
  rw [List.length_append] at this
  omega

theorem buildLine_snd_lt (w : Nat) (l : List (List Char)) (h : l ≠ []) :
    (buildLine w l).2.length < l.length := by
  have happ := buildLine_append w l
  have hlen := congrArg List.length happ
  rw [List.length_append] at hlen
  have hne := buildLine_fst_ne_nil w l h
  have : 0 < (buildLine w l).1.length := List.length_pos.mpr hne
  omega

/-! ### The trailing-whitespace drop -/

theorem dropLastWs_eq_none (cur : List (List Char)) (h : cur.getLast? = none) :
    dropLastWs cur = cur := by
  unfold dropLastWs
  rw [h]

theorem dropLastWs_eq_some (cur : List (List Char)) (ch : List Char)
    (h : cur.getLast? = some ch) :
    dropLastWs cur = if isWsChunk ch then cur.dropLast else cur := by
  unfold dropLastWs
  rw [h]

theorem dropLastWs_spec (cur : List (List Char)) :
    dropLastWs cur = cur
    ∨ ∃ ch, isWsChunk ch = true ∧ cur = dropLastWs cur ++ [ch] := by
  rcases hg : cur.getLast? with _ | ⟨ch⟩
  · left
    exact dropLastWs_eq_none cur hg
  · by_cases hws : isWsChunk ch = true
    · right
      refine ⟨ch, hws, ?_⟩
      rw [dropLastWs_eq_some cur ch hg, if_pos hws]
      obtain ⟨ys, hys⟩ := List.getLast?_eq_some_iff.mp hg
      rw [hys, List.dropLast_concat]
    · left
      rw [dropLastWs_eq_some cur ch hg, if_neg hws]

theorem chunkWords_dropLastWs (cur : List (List Char)) :
    chunkWords (dropLastWs cur) = chunkWords cur := by
  rcases dropLastWs_spec cur with h | ⟨ch, hws, h⟩
  · rw [h]
  · conv_rhs => rw [h]
    rw [chunkWords_append]
    simp [chunkWords, pyWords_of_wsChunk ch hws]

theorem chunksOK_dropLastWs (cur : List (List Char)) (h : ChunksOK cur) :
    ChunksOK (dropLastWs cur) := by
  rcases dropLastWs_spec cur with hd | ⟨ch, _, hd⟩
  · rw [hd]; exact h
  · rw [hd] at h
    exact (chunksOK_append _ _ h).1

/-! ### The outer wrapping loop -/

theorem wrapLoopF_step (w f : Nat) (first : Bool) (ch : List Char)
    (rest : List (List Char)) :
    wrapLoopF w (f + 1) first (ch :: rest)
    = (if (dropLastWs (buildLine w
          (if !first && isWsChunk ch then rest else ch :: rest)).1).isEmpty
       then wrapLoopF w f first (buildLine w
          (if !first && isWsChunk ch then rest else ch :: rest)).2
       else (dropLastWs (buildLine w
          (if !first && isWsChunk ch then rest else ch :: rest)).1).flatten
         :: wrapLoopF w f false (buildLine w
          (if !first && isWsChunk ch then rest else ch :: rest)).2) := rfl

theorem sum_lengths_dropLastWs (cur : List (List Char)) :
    (((dropLastWs cur).map List.length).sum : Nat) ≤ ((cur.map List.length).sum : Nat) := by
  rcases dropLastWs_spec cur with h | ⟨ch, _, h⟩
  · rw [h]
  · conv_rhs => rw [h]
    rw [List.map_append, List.sum_append]
    simp

/-- Every line the loop emits is the concatenation of a chunk-list slice; the
words of the emitted lines, concatenated, are exactly the words of the input
chunk list (nothing reordered, duplicated or lost except pure whitespace). -/
theorem wrapLoopF_words (w : Nat) :
    ∀ f (first : Bool) (cks : List (List Char)), cks.length ≤ f → ChunksOK cks →
      ((wrapLoopF w f first cks).map pyWords).flatten = chunkWords cks := by
  intro f
  induction f with
  | zero =>
    intro first cks hlen _
    have h0 : cks = [] := List.length_eq_zero.mp (Nat.le_zero.mp hlen)
    subst h0
    rfl
  | succ f ih =>
    intro first cks hlen hok
    cases cks with
    | nil => rfl
    | cons ch rest =>
      have key : ∀ (fb : Bool) (chunks1 : List (List Char)), ChunksOK chunks1 →
          (buildLine w chunks1).2.length ≤ f →
          ((if (dropLastWs (buildLine w chunks1).1).isEmpty
            then wrapLoopF w f fb (buildLine w chunks1).2
            else (dropLastWs (buildLine w chunks1).1).flatten
              :: wrapLoopF w f false (buildLine w chunks1).2).map pyWords).flatten
          = chunkWords chunks1 := by
        intro fb chunks1 hok1 hp2
        have happ : (buildLine w chunks1).1 ++ (buildLine w chunks1).2 = chunks1 :=
          buildLine_append w chunks1
        have hokpair := chunksOK_append _ _ (by rw [happ]; exact hok1)
        have hcw : chunkWords chunks1
            = chunkWords (buildLine w chunks1).1 ++ chunkWords (buildLine w chunks1).2 := by
          conv_lhs => rw [← happ]
          rw [chunkWords_append]
        by_cases hemp : (dropLastWs (buildLine w chunks1).1).isEmpty = true
        · rw [if_pos hemp]
          rw [ih fb _ hp2 hokpair.2]
          have hnil : dropLastWs (buildLine w chunks1).1 = [] := List.isEmpty_iff.mp hemp
          have hw1 : chunkWords (buildLine w chunks1).1 = [] := by
            rw [← chunkWords_dropLastWs, hnil]
            rfl
          rw [hcw, hw1, List.nil_append]
        · rw [if_neg hemp]
          rw [List.map_cons, List.flatten_cons]
          rw [ih false _ hp2 hokpair.2]
          have hokc3 : ChunksOK (dropLastWs (buildLine w chunks1).1) :=
            chunksOK_dropLastWs _ hokpair.1
          rw [pyWords_flatten_chunks (dropLastWs (buildLine w chunks1).1).length _
            (le_refl _) hokc3]
          rw [chunkWords_dropLastWs]
          exact hcw.symm
      rw [wrapLoopF_step]
      by_cases hdr : (!first && isWsChunk ch) = true
      · rw [if_pos hdr]
        have hws : isWsChunk ch = true := by
          simp only [Bool.and_eq_true] at hdr
          exact hdr.2
        have hrOK : ChunksOK rest := chunksOK_cons rest ch hok
        have hp2 : (buildLine w rest).2.length ≤ f := by
          have h1 := buildLine_snd_le w rest
          simp at hlen
          omega
        rw [key first rest hrOK hp2]
        have hpw : pyWords ch = [] := pyWords_of_wsChunk ch hws
        simp [chunkWords, hpw]
      · rw [if_neg hdr]
        have hp2 : (buildLine w (ch :: rest)).2.length ≤ f := by
          have h1 := buildLine_snd_lt w (ch :: rest) (by simp)
          simp at h1 hlen
          omega
        exact key first (ch :: rest) hok hp2

/-- For chunk lists whose non-whitespace chunks all fit the width, every
emitted line fits the width (the same greedy loop, with the long-chunk path
excluded by the hypothesis). -/
theorem wrapLoopF_len (w : Nat) :
    ∀ f (first : Bool) (cks : List (List Char)), cks.length ≤ f → ChunksOK cks →
      (∀ ch ∈ cks, chunkKind ch = false → ch.length ≤ w) →
      ∀ l ∈ wrapLoopF w f first cks, l.length ≤ w := by
  intro f
  induction f with
  | zero =>
    intro first cks hlen _ _ l hl
    have h0 : cks = [] := List.length_eq_zero.mp (Nat.le_zero.mp hlen)
    subst h0
    simp [wrapLoopF] at hl
  | succ f ih =>
    intro first cks hlen hok hbd
    cases cks with
    | nil => intro l hl; simp [wrapLoopF] at hl
    | cons ch rest =>
      have key : ∀ (fb : Bool) (chunks1 : List (List Char)), ChunksOK chunks1 →
          (buildLine w chunks1).2.length ≤ f →
          (∀ ch2 ∈ chunks1, chunkKind ch2 = false → ch2.length ≤ w) →
          ∀ l ∈ (if (dropLastWs (buildLine w chunks1).1).isEmpty
            then wrapLoopF w f fb (buildLine w chunks1).2
            else (dropLastWs (buildLine w chunks1).1).flatten
              :: wrapLoopF w f false (buildLine w chunks1).2), l.length ≤ w := by
        intro fb chunks1 hok1 hp2 hbd1
        have happ : (buildLine w chunks1).1 ++ (buildLine w chunks1).2 = chunks1 :=
          buildLine_append w chunks1
        have hokpair := chunksOK_append _ _ (by rw [happ]; exact hok1)
        have hbd2 : ∀ ch2 ∈ (buildLine w chunks1).2, chunkKind ch2 = false → ch2.length ≤ w := by
          intro ch2 h2
          exact hbd1 ch2 (by rw [← happ]; exact List.mem_append.mpr (Or.inr h2))
        by_cases hemp : (dropLastWs (buildLine w chunks1).1).isEmpty = true
        · rw [if_pos hemp]
          exact ih fb _ hp2 hokpair.2 hbd2
        · rw [if_neg hemp]
          intro l hl
          rcases List.mem_cons.mp hl with hle | hlr
          · subst hle
            have hch1ne : chunks1 ≠ [] := by
              intro h0
              subst h0
              exact hemp rfl
            rcases buildLine_spec w chunks1 with ⟨hl0, he⟩ | ⟨hne, he⟩
              | ⟨ch1, rest1, hl1, hbig, he⟩
            · exact absurd hl0 hch1ne
            · have hfst : (buildLine w chunks1).1 ≠ [] :=
                buildLine_fst_ne_nil w chunks1 hch1ne
              have hsum := greedy_sum_le w chunks1 0 (by rw [← he]; exact hfst)
              rw [← he] at hsum
              rw [List.length_flatten]
              have hdls := sum_lengths_dropLastWs (buildLine w chunks1).1
              omega
            · by_cases hws : isWsChunk ch1 = true
              · exfalso
                apply hemp
                rw [he]
                show (dropLastWs [ch1]).isEmpty = true
                rw [dropLastWs_eq_some [ch1] ch1 rfl, if_pos hws]
                rfl
              · exfalso
                have hcl : chunkKind ch1 = false := by
                  cases hcc : chunkKind ch1
                  · rfl
                  · exfalso
                    obtain ⟨hm, -⟩ := hok1
                    obtain ⟨-, hhom⟩ := hm ch1 (by rw [hl1]; simp)
                    obtain ⟨-, hwsc, -⟩ := ws_of_ascii_chunk ch1 hhom hcc
                    exact hws hwsc
                have hble := hbd1 ch1 (by rw [hl1]; simp) hcl
                omega
          · exact ih false _ hp2 hokpair.2 hbd2 l hlr
      rw [wrapLoopF_step]
      by_cases hdr : (!first && isWsChunk ch) = true
      · rw [if_pos hdr]
        have hrOK : ChunksOK rest := chunksOK_cons rest ch hok
        have hp2 : (buildLine w rest).2.length ≤ f := by
          have h1 := buildLine_snd_le w rest
          simp at hlen
          omega
        exact key first rest hrOK hp2
          (fun ch2 h2 => hbd ch2 (List.mem_cons.mpr (Or.inr h2)))
      · rw [if_neg hdr]
        have hp2 : (buildLine w (ch :: rest)).2.length ≤ f := by
          have h1 := buildLine_snd_lt w (ch :: rest) (by simp)
          simp at h1 hlen
          omega
        exact key first (ch :: rest) hok hp2 hbd

/-! ### The wrapping claims -/

/-- C3.  Wrapping round-trip: `wrap` splits only at whitespace boundaries —
the words of the produced lines, in order, are exactly the words of the input
(no word is ever cut, reordered or lost) — and therefore joining the produced
lines with single spaces and collapsing whitespace reproduces the original
text up to whitespace (the two sides have identical word lists, which is what
collapsing whitespace on both leaves). -/
theorem wrap_preserves_words (t : List Char) (width : Nat) (hw : 1 ≤ width) :
    ((wrap t width).map pyWords).flatten = pyWords t
    ∧ pyWords (joinSpace (wrap t width)) = pyWords t := by
  have hchunks := pySplitChunks_ok (munge t).length (munge t) (le_refl _)
  have hflat := pySplitChunks_flatten (munge t).length (munge t) (le_refl _)
  have hmain := wrapLoopF_words width (pySplitChunks (munge t)).length true
    (pySplitChunks (munge t)) (le_refl _) hchunks
  have hcw : chunkWords (pySplitChunks (munge t)) = pyWords t := by
    rw [← pyWords_flatten_chunks (pySplitChunks (munge t)).length _ (le_refl _) hchunks]
    rw [hflat]
    exact pyWords_munge t
  have h1 : ((wrap t width).map pyWords).flatten = pyWords t := by
    show ((wrapLoopF width (pySplitChunks (munge t)).length true
      (pySplitChunks (munge t))).map pyWords).flatten = pyWords t
    rw [hmain, hcw]
  refine ⟨h1, ?_⟩
  show wordsBy isPySpace (joinSpace (wrap t width)) = pyWords t
  rw [wordsBy_joinSpace isPySpace (by decide) (wrap t width)]
  exact h1

/-- C3 (witness): the theorem applied at a concrete input. -/
theorem wrap_preserves_words_witness :
    1 ≤ 5 ∧ (((wrap ("hello world").data 5).map pyWords).flatten
        = pyWords ("hello world").data
      ∧ pyWords (joinSpace (wrap ("hello world").data 5)) = pyWords ("hello world").data) :=
  ⟨by decide, wrap_preserves_words ("hello world").data 5 (by decide)⟩

/-- C2 (amended).  Wrapping line-length bound: for widths ≥ 1, every produced
line has length at most the width, provided every whitespace-delimited token
of the input is at most the width long.  (Unamended the claim is false: with
`break_long_words=False` a token longer than the width is emitted intact on a
line exceeding the width — see the counterexample.) -/
theorem wrap_line_length_bound (t : List Char) (width : Nat) (hw : 1 ≤ width)
    (htok : ∀ tok ∈ asciiTokens t, tok.length ≤ width) :
    ∀ l ∈ wrap t width, l.length ≤ width := by
  have hchunks := pySplitChunks_ok (munge t).length (munge t) (le_refl _)
  have hflat := pySplitChunks_flatten (munge t).length (munge t) (le_refl _)
  have hbd : ∀ ch ∈ pySplitChunks (munge t), chunkKind ch = false → ch.length ≤ width := by
    intro ch hch hcl
    apply htok
    have hJ := asciiTokens_flatten_chunks (pySplitChunks (munge t)).length _
      (le_refl _) hchunks
    rw [hflat] at hJ
    rw [← asciiTokens_munge t, hJ]
    refine List.mem_filter.mpr ⟨hch, ?_⟩
    rw [hcl]
    rfl
  show ∀ l ∈ wrapLoopF width (pySplitChunks (munge t)).length true
    (pySplitChunks (munge t)), l.length ≤ width
  exact wrapLoopF_len width (pySplitChunks (munge t)).length true _
    (le_refl _) hchunks hbd

/-- C2 (counterexample).  As stated the claim fails: `break_long_words=False`
keeps a long word intact, so wrapping the single word `abcd` at width 3
produces the line `abcd` of length 4 > 3. -/
theorem wrap_line_length_bound_fails :
    ∃ l ∈ wrap ('a' :: 'b' :: 'c' :: 'd' :: []) 3, 3 < l.length := by
  decide

/-- C2 (witness): the amended theorem applied at a concrete input. -/
theorem wrap_line_length_bound_witness :
    1 ≤ 5 ∧ (∀ tok ∈ asciiTokens ("ab cd ef").data, tok.length ≤ 5)
    ∧ ∀ l ∈ wrap ("ab cd ef").data 5, l.length ≤ 5 :=
  ⟨by decide, by decide,
    wrap_line_length_bound ("ab cd ef").data 5 (by decide) (by decide)⟩

end PTPDF

